import Mathlib

/-!
# gitlab-scaffold: template materialization engine

A shallow embedding of `internal/stringx/stringx.go` (the naming transforms),
`internal/scaffold/scaffold.go` (the path renamer and the per-file visitor) and
`internal/util/unpack.go` (the archive extractor), together with the parts of the Go
standard library they call (`strings`, `unicode`, `path/filepath`, `encoding/base64`).

Modelling conventions
* A Go `string` holding text (names, paths) is the list of its runes, `Str`; the
  development covers valid UTF-8 text. The separators used by the code (`-`, `/`, `.`,
  the braces) are ASCII, so byte-wise and rune-wise search agree on such text.
* File contents are byte lists (`List Nat`, each byte read modulo 256).
* A run-time panic (index or slice out of range) is the value `none`.
* The Unicode case tables outside ASCII are a parameter, `CaseTables`.
* Go leaves the iteration order of a map unspecified; the order in which the
  replacement map of `replacePathName` is traversed is an explicit argument.
* The archive is given as the entries its readers yield; the file system written by the
  extractor is a parameter with an explicit state.
-/

namespace GitlabScaffold

/-- Text held by a Go string: the sequence of its runes. -/
abbrev Str := List Char

/-! ## Go runtime: indexing and slicing -/

/-- Slice expression `l[lo:hi]`; fails when the bounds are out of range. -/
def goSlice {α : Type} (l : List α) (lo hi : Nat) : Option (List α) :=
  if lo ≤ hi ∧ hi ≤ l.length then some ((l.take hi).drop lo) else none

/-- Index expression `l[i]`; fails when the index is out of range. -/
def goIndex {α : Type} (l : List α) (i : Nat) : Option α :=
  l.get? i

/-! ## package unicode -/

/-- The case data of package `unicode` for runes above `MaxASCII`. -/
structure CaseTables where
  upper : Char → Char
  lower : Char → Char
  isUpper : Char → Bool
  isLower : Char → Bool

/-- Tables that leave every rune above `MaxASCII` alone (used for concrete instances on
ASCII text, where the tables are never consulted). -/
def CaseTables.trivial : CaseTables :=
  ⟨fun r => r, fun r => r, fun _ => false, fun _ => false⟩

/-- Go `unicode.ToUpper`: ASCII fast path, the tables otherwise. -/
def unicodeToUpper (T : CaseTables) (r : Char) : Char :=
  if r.toNat ≤ 127 then
    if 97 ≤ r.toNat ∧ r.toNat ≤ 122 then Char.ofNat (r.toNat - 32) else r
  else T.upper r

/-- Go `unicode.ToLower`: ASCII fast path, the tables otherwise. -/
def unicodeToLower (T : CaseTables) (r : Char) : Char :=
  if r.toNat ≤ 127 then
    if 65 ≤ r.toNat ∧ r.toNat ≤ 90 then Char.ofNat (r.toNat + 32) else r
  else T.lower r

/-- Go `unicode.IsUpper`: an uppercase letter (`A`..`Z` within ASCII). -/
def unicodeIsUpper (T : CaseTables) (r : Char) : Bool :=
  if r.toNat ≤ 127 then decide (65 ≤ r.toNat ∧ r.toNat ≤ 90) else T.isUpper r

/-- Go `unicode.IsLower`: a lowercase letter (`a`..`z` within ASCII). -/
def unicodeIsLower (T : CaseTables) (r : Char) : Bool :=
  if r.toNat ≤ 127 then decide (97 ≤ r.toNat ∧ r.toNat ≤ 122) else T.isLower r

/-- An ASCII letter, `A`..`Z` or `a`..`z`. -/
def isAsciiLetter (r : Char) : Bool :=
  decide ((65 ≤ r.toNat ∧ r.toNat ≤ 90) ∨ (97 ≤ r.toNat ∧ r.toNat ≤ 122))

/-! ## package strings -/

/-- Loop of `strings.Split(s, sep)` for a one-rune separator: `cur` is the segment being
read; every separator closes it, the end of the input closes the last one. -/
def splitLoop (sep : Char) : Str → Str → List Str
  | cur, [] => [cur]
  | cur, c :: cs => if c = sep then cur :: splitLoop sep [] cs else splitLoop sep (cur ++ [c]) cs

/-- Go `strings.Split(s, sep)` with a one-rune separator. -/
def Split (sep : Char) (s : Str) : List Str :=
  splitLoop sep [] s

/-- Loop of `strings.FieldsFunc`: `cur` is the open span (empty when no span is open). -/
def fieldsLoop (f : Char → Bool) : Str → Str → List Str
  | cur, [] => if cur = [] then [] else [cur]
  | cur, c :: cs =>
    if f c then
      if cur = [] then fieldsLoop f [] cs else cur :: fieldsLoop f [] cs
    else fieldsLoop f (cur ++ [c]) cs

/-- Go `strings.FieldsFunc(s, f)`: the maximal runs of runes not satisfying `f`. -/
def FieldsFunc (f : Char → Bool) (s : Str) : List Str :=
  fieldsLoop f [] s

/-- Go `strings.Join(elems, sep)`. -/
def Join (sep : Str) : List Str → Str
  | [] => []
  | [a] => a
  | a :: b :: rest => a ++ sep ++ Join sep (b :: rest)

/-- Go `strings.Contains(s, substr)` with a one-rune `substr`. -/
def Contains (s : Str) (c : Char) : Bool :=
  decide (c ∈ s)

/-! ## internal/stringx -/

/-- The function `StringInSlice` of stringx.go. -/
def StringInSlice (a : Str) : List Str → Bool
  | [] => false
  | b :: rest => if b = a then true else StringInSlice a rest

/-- Body of the loop of `ToPascalCase`: `runes[0] = unicode.ToUpper(runes[0])`, which
fails on an empty segment. -/
def upperFirst (T : CaseTables) : Str → Option Str
  | [] => none
  | r :: rs => some (unicodeToUpper T r :: rs)

/-- The loop of `ToPascalCase` over the fields. -/
def upperEach (T : CaseTables) : List Str → Option (List Str)
  | [] => some []
  | seg :: rest =>
    match upperFirst T seg, upperEach T rest with
    | some s, some r => some (s :: r)
    | _, _ => none

/-- The function `ToPascalCase` of stringx.go. -/
def ToPascalCase (T : CaseTables) (str : Str) : Option Str :=
  match upperEach T (FieldsFunc (fun r => r == '-') str) with
  | some splitted => some (Join [] splitted)
  | none => none

/-- The function `ToCamelCase` of stringx.go; `r[0]` fails on an empty Pascal form. -/
def ToCamelCase (T : CaseTables) (s : Str) : Option Str :=
  match ToPascalCase T s with
  | some (r :: rs) => some (unicodeToLower T r :: rs)
  | _ => none

/-- The function `SkipFirstPart` of stringx.go. -/
def SkipFirstPart (T : CaseTables) (s : Str) : Option Str :=
  if Contains s '-' then
    match goSlice (Split '-' s) 1 (Split '-' s).length with
    | some parts => ToCamelCase T (Join ['-'] parts)
    | none => none
  else some s

/-- The function `SkipLastPart` of stringx.go. -/
def SkipLastPart (s : Str) : Option Str :=
  let parts := Split '-' s
  if parts.length < 2 then some s
  else
    match goSlice parts 0 (parts.length - 1) with
    | some init => some (Join ['-'] init)
    | none => none

/-- The function `SkipFirstAndLastParts` of stringx.go. -/
def SkipFirstAndLastParts (s : Str) : Option Str :=
  let parts := Split '-' s
  if parts.length < 3 then
    if parts.length = 2 then goIndex parts 1 else some s
  else
    match goSlice parts 1 (parts.length - 1) with
    | some mid => some (Join ['-'] mid)
    | none => none

/-! ## package strings (continued), path/filepath, encoding/base64 -/

/-- Go `strings.HasPrefix(s, pre)`. -/
def HasPrefix : Str → Str → Bool
  | _, [] => true
  | [], _ :: _ => false
  | c :: cs, p :: ps => decide (c = p) && HasPrefix cs ps

/-- Go `strings.TrimPrefix(s, pre)`. -/
def TrimPrefix (s pre : Str) : Str :=
  if HasPrefix s pre then s.drop pre.length else s

/-- Scan of `strings.Replace(s, old, new, -1)` for a non-empty `old`: occurrences are
taken left to right without overlap; `skip` counts the runes of a matched occurrence
still to be passed over. -/
def replaceLoop (old new : Str) : Nat → Str → Str
  | _, [] => []
  | skip + 1, _ :: cs => replaceLoop old new skip cs
  | 0, c :: cs =>
    if HasPrefix (c :: cs) old then new ++ replaceLoop old new (old.length - 1) cs
    else c :: replaceLoop old new 0 cs

/-- Go `strings.Replace(s, old, new, -1)`. An empty `old` matches before every rune and
at the end. -/
def Replace (s old new : Str) : Str :=
  if old = [] then new ++ (s.map (fun c => c :: new)).flatten
  else replaceLoop old new 0 s

/-- Go `strings.ToLower`. -/
def ToLower (T : CaseTables) (s : Str) : Str :=
  s.map (unicodeToLower T)

/-- Go `filepath.Base` (Unix): trailing slashes removed, then the last element; `"."` for
the empty path and `"/"` for a path of slashes only. -/
def Base (path : Str) : Str :=
  if path = [] then ['.']
  else
    let stripped := path.reverse.dropWhile (fun c => c == '/')
    let last := (stripped.takeWhile (fun c => c != '/')).reverse
    if last = [] then ['/'] else last

/-- Loop of `filepath.Ext`, over the path read from its end: stop at a separator, return
the suffix from the first dot met. `acc` is the part already passed, in path order. -/
def extLoop : Str → Str → Str
  | [], _ => []
  | c :: rest, acc =>
    if c = '/' then [] else if c = '.' then c :: acc else extLoop rest (c :: acc)

/-- Go `filepath.Ext`: the suffix beginning at the final dot of the final element. -/
def Ext (path : Str) : Str :=
  extLoop path.reverse []

/-- The alphabet of `base64.StdEncoding`. -/
def base64Alphabet : Str :=
  "ABCDEFGHIJKLMNOPQRSTUVWXYZabcdefghijklmnopqrstuvwxyz0123456789+/".toList

/-- The digit of `base64.StdEncoding` for a 6-bit value. -/
def base64Digit (n : Nat) : Char :=
  base64Alphabet.getD (n % 64) 'A'

/-- Go `base64.StdEncoding.EncodeToString`: three bytes give four digits, the last group
is padded with `=`. -/
def base64Encode : List Nat → Str
  | [] => []
  | [a] =>
    [base64Digit (a % 256 / 4), base64Digit (a % 256 % 4 * 16), '=', '=']
  | [a, b] =>
    [base64Digit (a % 256 / 4), base64Digit (a % 256 % 4 * 16 + b % 256 / 16),
     base64Digit (b % 256 % 16 * 4), '=']
  | a :: b :: c :: rest =>
    [base64Digit (a % 256 / 4), base64Digit (a % 256 % 4 * 16 + b % 256 / 16),
     base64Digit (b % 256 % 16 * 4 + c % 256 / 64), base64Digit (c % 256 % 64)]
      ++ base64Encode rest

/-- The 6-bit value of a digit of `base64.StdEncoding`, if the rune is one. -/
def base64Value (c : Char) : Option Nat :=
  if base64Alphabet.indexOf c < 64 then some (base64Alphabet.indexOf c) else none

/-- Reading of a padded base64 text (RFC 4648, section 4), the inverse direction of
`base64.StdEncoding`: four digits give three bytes; a last group ending in `=` gives two
bytes, one ending in `==` gives one byte. -/
def base64Decode : Str → Option (List Nat)
  | [] => some []
  | c1 :: c2 :: c3 :: c4 :: rest =>
    match base64Value c1, base64Value c2 with
    | some v1, some v2 =>
      if c4 = '=' then
        if rest = [] then
          if c3 = '=' then some [v1 * 4 + v2 / 16]
          else
            match base64Value c3 with
            | some v3 => some [v1 * 4 + v2 / 16, v2 % 16 * 16 + v3 / 4]
            | none => none
        else none
      else
        match base64Value c3, base64Value c4, base64Decode rest with
        | some v3, some v4, some tail =>
          some ((v1 * 4 + v2 / 16) :: (v2 % 16 * 16 + v3 / 4) :: (v3 % 4 * 64 + v4) :: tail)
        | _, _, _ => none
    | _, _ => none
  | _ => none

/-- The bytes of an ASCII text. -/
def asciiBytes (s : Str) : List Nat :=
  s.map Char.toNat

/-! ## internal/scaffold -/

/-- The package variable `defaultExtensions` of scaffold.go. -/
def defaultExtensions : List Str :=
  [".go", ".java", ".py", ".vue", ".md", ".html", ".css", ".js", ".scss",
   ".json", ".xml", ".yml", ".yaml", ".kt", ".gradle"].map String.toList

/-- The package variable `defaultBase64Extensions` of scaffold.go. -/
def defaultBase64Extensions : List Str :=
  [".png", ".jar", ".jpg", ".jks"].map String.toList

/-- The package variable `defaultFiles` of scaffold.go. -/
def defaultFiles : List Str :=
  ["Dockerfile", "Makefile"].map String.toList

/-- The three package variables read by the classification of `VisitAndModifyFiles`. -/
structure Sets where
  extensions : List Str
  base64Extensions : List Str
  files : List Str

/-- The values the package variables have in scaffold.go. -/
def defaultSets : Sets :=
  ⟨defaultExtensions, defaultBase64Extensions, defaultFiles⟩

/-- The struct `TemplateData` of scaffold.go. -/
structure TemplateData where
  Name : Str
  Port : Int

/-- The struct `FileData` of gitlabx/client.go; `Content` is kept as bytes. -/
structure FileData where
  Content : List Nat
  Encoding : Str
deriving DecidableEq

/-- The keys of the map `replacements` of `replacePathName`, in the order of the source. -/
inductive Placeholder where
  | name
  | skipFirstPart
  | skipFirstAndLastPart
  | toPascalCase
  | toCamelCase
deriving DecidableEq

/-- The spelling of a key of the map `replacements`. -/
def Placeholder.key : Placeholder → Str
  | .name => "\x7b\x7bName\x7d\x7d".toList
  | .skipFirstPart => "\x7b\x7bName_SkipFirstPart\x7d\x7d".toList
  | .skipFirstAndLastPart => "\x7b\x7bName_SkipFirstAndLastPart\x7d\x7d".toList
  | .toPascalCase => "\x7b\x7bName_ToPascalCase\x7d\x7d".toList
  | .toCamelCase => "\x7b\x7bName_ToCamelCase\x7d\x7d".toList

/-- The keys of the map `replacements`, as written in the source. -/
def Placeholder.all : List Placeholder :=
  [.name, .skipFirstPart, .skipFirstAndLastPart, .toPascalCase, .toCamelCase]

/-- The map literal `replacements` of `replacePathName`: its five values are computed
before the loop; it fails when one of the calls fails. -/
def replacements (T : CaseTables) (serviceName : Str) : Option (Placeholder → Str) :=
  match SkipFirstPart T serviceName, SkipFirstAndLastParts serviceName,
        ToPascalCase T serviceName, ToCamelCase T serviceName with
  | some v1, some v2, some v3, some v4 =>
    some (fun k =>
      match k with
      | .name => serviceName
      | .skipFirstPart => v1
      | .skipFirstAndLastPart => v2
      | .toPascalCase => v3
      | .toCamelCase => v4)
  | _, _, _, _ => none

/-- The loop `for k, v := range replacements` of `replacePathName`, the keys being met in
the order `order`. -/
def replaceAll (vals : Placeholder → Str) (order : List Placeholder) (pathName : Str) : Str :=
  order.foldl (fun p k => Replace p k.key (vals k)) pathName

/-- The function `replacePathName` of scaffold.go; `order` is the order in which the
`range` loop meets the keys of the map (a permutation of `Placeholder.all`). -/
def replacePathName (T : CaseTables) (order : List Placeholder) (serviceName pathName : Str) :
    Option Str :=
  match replacements T serviceName with
  | some vals => some (replaceAll vals order pathName)
  | none => none

/-- What lies outside the visitor: the case tables, the order of the map traversal, the
file system read by `os.ReadFile`, and `text/template` (parse of the content with the
five functions registered, then execution on the data). -/
structure Host where
  tables : CaseTables
  order : List Placeholder
  readFile : Str → Except Str (List Nat)
  render : TemplateData → List Nat → Except Str (List Nat)

/-- Result of a call: a returned value, a returned error, or a panic. -/
inductive Outcome (α : Type) where
  | ok (v : α)
  | fail (err : Str)
  | panic

/-- The map returned by `VisitAndModifyFiles`, as the list of its entries. -/
abbrev FileMap := List (Str × FileData)

/-- The function `VisitAndModifyFiles` of scaffold.go, the three package variables being
the argument `S`; `isDir` is `f.IsDir()`, `err` the incoming error. -/
def VisitAndModifyFilesWith (S : Sets) (H : Host) (rootPath path : Str) (data : TemplateData)
    (isDir : Bool) (err : Option Str) : Outcome FileMap :=
  match err with
  | some e => .fail e
  | none =>
    match replacePathName H.tables H.order data.Name path with
    | none => .panic
    | some renamed =>
      let base := Base renamed
      let newpath := TrimPrefix renamed rootPath
      if !isDir then
        let ext := ToLower H.tables (Ext newpath)
        match H.readFile path with
        | .error e => .fail e
        | .ok content =>
          if StringInSlice ext S.extensions || StringInSlice base S.files then
            match H.render data content with
            | .error e => .fail e
            | .ok out => .ok [(newpath, ⟨out, "text".toList⟩)]
          else if StringInSlice ext S.base64Extensions then
            .ok [(newpath, ⟨asciiBytes (base64Encode content), "base64".toList⟩)]
          else
            .ok [(newpath, ⟨content, "text".toList⟩)]
      else .ok []

/-- The function `VisitAndModifyFiles` of scaffold.go with the package variables at the
values of the source. -/
def VisitAndModifyFiles (H : Host) (rootPath path : Str) (data : TemplateData)
    (isDir : Bool) (err : Option Str) : Outcome FileMap :=
  VisitAndModifyFilesWith defaultSets H rootPath path data isDir err

/-- Capitalised form of one segment: first rune through `unicode.ToUpper`, the rest kept. -/
def capFirst (T : CaseTables) : Str → Str
  | [] => []
  | r :: rs => unicodeToUpper T r :: rs

/-! ## path/filepath (continued) and internal/util -/

/-- Loop of `filepath.Clean` over the `/`-separated elements of a path: empty elements
and `.` are dropped; `..` removes the element before it when there is one that is not
`..`, is dropped at the head of a rooted path, and is kept otherwise. `stack` holds the
elements kept so far, the last one first. -/
def cleanLoop (rooted : Bool) : List Str → List Str → List Str
  | stack, [] => stack.reverse
  | stack, c :: cs =>
    if c = [] ∨ c = ['.'] then cleanLoop rooted stack cs
    else if c = ['.', '.'] then
      match stack with
      | top :: below =>
        if top = ['.', '.'] then cleanLoop rooted (c :: stack) cs
        else cleanLoop rooted below cs
      | [] => if rooted then cleanLoop rooted [] cs else cleanLoop rooted [c] cs
    else cleanLoop rooted (c :: stack) cs

/-- Go `filepath.Clean` (Unix): the shortest equivalent path, `"."` for an empty result. -/
def Clean (path : Str) : Str :=
  let rooted := path.head? == some '/'
  let out := (if rooted then ['/'] else []) ++ Join ['/'] (cleanLoop rooted [] (Split '/' path))
  if out = [] then ['.'] else out

/-- Go `filepath.Join` (Unix): leading empty elements are ignored, the others are joined
with `/` and the result is cleaned; the empty string when every element is empty. -/
def filepathJoin : List Str → Str
  | [] => []
  | e :: rest => if e = [] then filepathJoin rest else Clean (Join ['/'] (e :: rest))

/-- What `UnpackTarGz` reads of a `tar.Header`, with the content of the entry. -/
structure Header where
  Name : Str
  isDir : Bool
  mode : Nat
  body : List Nat

/-- The byte slice given to `UnpackTarGz`, as `gzip.NewReader` and `tar.Reader` present
it: the error of `gzip.NewReader` if any, the entries `tr.Next()` yields, and the error
that ends the stream (`none` for `io.EOF`). -/
structure Archive where
  gzipErr : Option Str
  entries : List Header
  tarErr : Option Str

/-- The local file system written by `UnpackTarGz`, with states `σ`: `os.MkdirAll`, and
`os.OpenFile` followed by `io.Copy` of the entry. -/
structure FileSystem (σ : Type) where
  mkdirAll : σ → Str → Nat → Except Str σ
  writeFile : σ → Str → Nat → List Nat → Except Str σ

/-- A file system on which every operation succeeds. -/
def FileSystem.accepting : FileSystem Unit :=
  ⟨fun _ _ _ => .ok (), fun _ _ _ _ => .ok ()⟩

/-- The name of the pseudo-entry `UnpackTarGz` passes over. -/
def paxGlobalHeader : Str :=
  "pax_global_header".toList

/-- The `for` loop of `UnpackTarGz`; `rootDir` is the local variable of that name. -/
def unpackLoop {σ : Type} (fs : FileSystem σ) (dst : Str) (tarErr : Option Str) :
    σ → Str → List Header → Outcome (Str × σ)
  | disk, rootDir, [] =>
    match tarErr with
    | some e => .fail e
    | none => .ok (rootDir, disk)
  | disk, rootDir, hdr :: rest =>
    if hdr.Name = paxGlobalHeader then unpackLoop fs dst tarErr disk rootDir rest
    else
      match (if rootDir = [] then goIndex (Split '/' hdr.Name) 0 else some rootDir) with
      | none => .panic
      | some rootDir2 =>
        let destPath := filepathJoin [dst, hdr.Name]
        if hdr.isDir then
          match fs.mkdirAll disk destPath hdr.mode with
          | .error e => .fail e
          | .ok disk2 => unpackLoop fs dst tarErr disk2 rootDir2 rest
        else
          match fs.writeFile disk destPath hdr.mode hdr.body with
          | .error e => .fail e
          | .ok disk2 => unpackLoop fs dst tarErr disk2 rootDir2 rest

/-- The function `UnpackTarGz` of unpack.go; the result carries the final state of the
file system. -/
def UnpackTarGz {σ : Type} (fs : FileSystem σ) (disk : σ) (data : Archive) (dst : Str) :
    Outcome (Str × σ) :=
  match data.gzipErr with
  | some e => .fail e
  | none =>
    match unpackLoop fs dst data.tarErr disk [] data.entries with
    | .ok (rootDir, disk2) => .ok (filepathJoin [dst, rootDir], disk2)
    | .fail e => .fail e
    | .panic => .panic

/-- The leading `/`-delimited segment of a path. -/
def leadingSegment (name : Str) : Str :=
  name.takeWhile (fun c => c != '/')

/-- The value of `rootDir` after the loop has run over `entries`, started at `rootDir`:
entries named `pax_global_header` are passed over; an assignment takes place at every
other entry met while `rootDir` is empty. -/
def rootAfter : Str → List Header → Str
  | rootDir, [] => rootDir
  | rootDir, hdr :: rest =>
    if hdr.Name = paxGlobalHeader then rootAfter rootDir rest
    else if rootDir = [] then rootAfter (leadingSegment hdr.Name) rest
    else rootAfter rootDir rest

/-- A host for concrete instances: ASCII-only tables, the keys met in source order, every
file reading as `content`, and a renderer returning its input (templates without
directives). -/
def Host.sample (content : List Nat) : Host :=
  ⟨CaseTables.trivial, Placeholder.all, fun _ => .ok content, fun _ c => .ok c⟩

/-- A path cut into pieces: text kept as it is, and occurrences of the keys. -/
inductive Piece where
  | lit (s : Str)
  | ph (k : Placeholder)

/-- The piece as spelled in the path. -/
def Piece.text : Piece → Str
  | .lit s => s
  | .ph k => k.key

/-- The piece after substitution of the values. -/
def Piece.subst (vals : Placeholder → Str) : Piece → Str
  | .lit s => s
  | .ph k => vals k

/-- The path spelled by a list of pieces. -/
def pathOf (ps : List Piece) : Str :=
  (ps.map Piece.text).flatten

/-- The single simultaneous substitution: every key occurrence replaced by its value,
every other piece kept, nothing rescanned. -/
def substAll (vals : Placeholder → Str) (ps : List Piece) : Str :=
  (ps.map (Piece.subst vals)).flatten

/-- `old` and `w` differ at a position both have: `old` is then no prefix of `w ++ rest`,
whatever `rest`. -/
def clash : Str → Str → Bool
  | a :: as, b :: bs => decide (a ≠ b) || clash as bs
  | _, _ => false

/-- From no position of `w` can an occurrence of `old` start, whatever follows `w`. -/
def noHit (old : Str) : Str → Bool
  | [] => true
  | c :: cs => clash old (c :: cs) && noHit old cs

/-- No occurrence of any of the five keys can start inside `s`, whatever follows it. -/
def inert (s : Str) : Bool :=
  Placeholder.all.all (fun k => noHit k.key s)

/-- A piece that is a key, or text in which no key can start. -/
def Piece.plain : Piece → Bool
  | .lit s => inert s
  | .ph _ => true

/-- One step of the loop seen on a piece: the occurrences of `k` become its value. -/
def Piece.fill (vals : Placeholder → Str) (k : Placeholder) : Piece → Piece
  | .lit s => .lit s
  | .ph j => if j = k then .lit (vals k) else .ph j

/-- The text of `s` after its first `-` (empty when there is none). -/
def afterFirstDash (s : Str) : Str :=
  (s.dropWhile (fun r => r != '-')).drop 1

/-- The first rune of `name` other than `-`, if there is one. -/
def firstNonDash (name : Str) : Option Char :=
  name.find? (fun r => r != '-')

/-! ## Theorems -/

theorem splitLoop_ne_nil (sep : Char) (s cur : Str) : splitLoop sep cur s ≠ [] := by
  induction s generalizing cur with
  | nil => simp [splitLoop]
  | cons c cs ih =>
    simp only [splitLoop]
    split
    · simp
    · exact ih _

theorem splitLoop_of_not_mem (sep : Char) (s cur : Str) (h : sep ∉ s) :
    splitLoop sep cur s = [cur ++ s] := by
  induction s generalizing cur with
  | nil => simp [splitLoop]
  | cons c cs ih =>
    simp only [List.mem_cons, not_or] at h
    have hc : ¬ c = sep := fun e => h.1 e.symm
    simp [splitLoop, hc, ih _ h.2]

theorem splitLoop_append (sep : Char) (a b cur : Str) (h : sep ∉ a) :
    splitLoop sep cur (a ++ sep :: b) = (cur ++ a) :: splitLoop sep [] b := by
  induction a generalizing cur with
  | nil => simp [splitLoop]
  | cons c cs ih =>
    simp only [List.mem_cons, not_or] at h
    have hc : ¬ c = sep := fun e => h.1 e.symm
    simp [splitLoop, hc, ih _ h.2]

theorem splitLoop_snoc (sep : Char) (a b cur : Str) (h : sep ∉ b) :
    splitLoop sep cur (a ++ sep :: b) = splitLoop sep cur a ++ [b] := by
  induction a generalizing cur with
  | nil => simp [splitLoop, splitLoop_of_not_mem sep b [] h]
  | cons c cs ih =>
    by_cases hc : c = sep
    · simp [splitLoop, hc, ih]
    · simp [splitLoop, hc, ih]

theorem Join_cons_of_ne_nil (sep a : Str) (l : List Str) (h : l ≠ []) :
    Join sep (a :: l) = a ++ sep ++ Join sep l := by
  cases l with
  | nil => exact absurd rfl h
  | cons b rest => rfl

theorem Join_splitLoop (sep : Char) (s cur : Str) :
    Join [sep] (splitLoop sep cur s) = cur ++ s := by
  induction s generalizing cur with
  | nil => simp [splitLoop, Join]
  | cons c cs ih =>
    by_cases hc : c = sep
    · simp [splitLoop, hc, Join_cons_of_ne_nil _ _ _ (splitLoop_ne_nil sep cs []), ih]
    · simp [splitLoop, hc, ih]

theorem Join_Split (sep : Char) (s : Str) : Join [sep] (Split sep s) = s := by
  simp [Split, Join_splitLoop]

theorem Join_snoc (sep b : Str) (l : List Str) (h : l ≠ []) :
    Join sep (l ++ [b]) = Join sep l ++ sep ++ b := by
  induction l with
  | nil => exact absurd rfl h
  | cons a rest ih =>
    cases rest with
    | nil => simp [Join]
    | cons a2 rest2 =>
      have := ih (by simp)
      simp only [List.cons_append, Join] at this ⊢
      simp [this]

theorem Join_nil_sep (l : List Str) : Join [] l = l.flatten := by
  induction l with
  | nil => rfl
  | cons a rest ih =>
    cases rest with
    | nil => simp [Join]
    | cons b rest2 => simp only [Join, List.flatten_cons] at ih ⊢; simp [ih]

theorem Split_length_ge_two_iff (sep : Char) (s : Str) :
    2 ≤ (Split sep s).length ↔ sep ∈ s := by
  constructor
  · intro h
    by_contra hn
    rw [Split, splitLoop_of_not_mem sep s [] hn] at h
    simp at h
  · intro h
    obtain ⟨a, b, rfl, ha⟩ := List.eq_append_cons_of_mem h
    rw [Split, splitLoop_append sep a b [] ha]
    have := List.length_pos.mpr (splitLoop_ne_nil sep b [])
    simp only [List.length_cons]
    omega

theorem exists_last_split (sep : Char) (s : Str) (h : sep ∈ s) :
    ∃ a b, s = a ++ sep :: b ∧ sep ∉ b := by
  have h2 : sep ∈ s.reverse := List.mem_reverse.mpr h
  obtain ⟨a, b, hab, ha⟩ := List.eq_append_cons_of_mem h2
  refine ⟨b.reverse, a.reverse, ?_, by simpa using ha⟩
  have := congrArg List.reverse hab
  simpa using this

theorem afterFirstDash_append (a b : Str) (h : '-' ∉ a) :
    afterFirstDash (a ++ '-' :: b) = b := by
  induction a with
  | nil => simp [afterFirstDash, List.dropWhile]
  | cons c cs ih =>
    simp only [List.mem_cons, not_or] at h
    have hc : ¬ c = '-' := fun e => h.1 e.symm
    have hb : (c != '-') = true := by simp [hc]
    have := ih h.2
    simp only [afterFirstDash] at this
    simp only [afterFirstDash, List.cons_append, List.dropWhile_cons, hb, if_true]
    exact this

theorem goSlice_tail {α : Type} (a : α) (l : List α) :
    goSlice (a :: l) 1 (a :: l).length = some l := by
  simp [goSlice]

theorem goSlice_init {α : Type} (l : List α) (b : α) :
    goSlice (l ++ [b]) 0 ((l ++ [b]).length - 1) = some l := by
  simp [goSlice]

theorem fieldsLoop_eq_filter (s cur : Str) :
    fieldsLoop (fun r => r == '-') cur s
      = (splitLoop '-' cur s).filter (fun seg => decide (seg ≠ [])) := by
  induction s generalizing cur with
  | nil =>
    by_cases hc : cur = [] <;> simp [fieldsLoop, splitLoop, hc]
  | cons c cs ih =>
    by_cases hd : c = '-'
    · by_cases hc : cur = [] <;> simp [fieldsLoop, splitLoop, hd, hc, ih]
    · simp [fieldsLoop, splitLoop, hd, ih]

theorem FieldsFunc_eq_filter (s : Str) :
    FieldsFunc (fun r => r == '-') s
      = (Split '-' s).filter (fun seg => decide (seg ≠ [])) :=
  fieldsLoop_eq_filter s []

theorem upperEach_of_nonempty (T : CaseTables) (l : List Str) (h : ∀ seg ∈ l, seg ≠ []) :
    upperEach T l = some (l.map (capFirst T)) := by
  induction l with
  | nil => rfl
  | cons seg rest ih =>
    have hs : seg ≠ [] := h seg (by simp)
    have hr := ih (fun x hx => h x (by simp [hx]))
    cases seg with
    | nil => exact absurd rfl hs
    | cons r rs => simp [upperEach, upperFirst, hr, capFirst]

theorem ToPascalCase_eq (T : CaseTables) (s : Str) :
    ToPascalCase T s
      = some (((Split '-' s).filter (fun seg => decide (seg ≠ []))).map (capFirst T)).flatten := by
  have h := upperEach_of_nonempty T ((Split '-' s).filter (fun seg => decide (seg ≠ [])))
    (by intro seg hseg; simpa using (List.mem_filter.mp hseg).2)
  simp only [ToPascalCase, FieldsFunc_eq_filter, h, Join_nil_sep]

/-! ### Claims on the naming transforms -/

/-- C6: `SkipFirstPart(s)` is `ToCamelCase` of the text after the first `-` of `s` when `s`
contains `-` (dropping the first segment and the `-` after it: for `s = a ++ "-" ++ b`
with no `-` in `a`, that text is `b`), and `s` itself otherwise; the two examples of the
specification evaluate as stated. A failure of `ToCamelCase` is a failure of
`SkipFirstPart` at the same input. -/
theorem SkipFirstPart_spec (T : CaseTables) :
    (∀ s : Str, SkipFirstPart T s
        = if '-' ∈ s then ToCamelCase T (afterFirstDash s) else some s) ∧
    (∀ a b : Str, '-' ∉ a → SkipFirstPart T (a ++ '-' :: b) = ToCamelCase T b) ∧
    SkipFirstPart T "hello-world-android".toList = some "worldAndroid".toList ∧
    SkipFirstPart T "tope".toList = some "tope".toList := by
  have key : ∀ a b : Str, '-' ∉ a → SkipFirstPart T (a ++ '-' :: b) = ToCamelCase T b := by
    intro a b ha
    have hm : '-' ∈ a ++ '-' :: b := by simp
    have hs : Split '-' (a ++ '-' :: b) = a :: Split '-' b := by
      simpa [Split] using splitLoop_append '-' a b [] ha
    simp only [SkipFirstPart, Contains, hm, decide_True, if_true, hs, goSlice_tail, Join_Split]
  refine ⟨?_, key, rfl, rfl⟩
  intro s
  by_cases h : '-' ∈ s
  · obtain ⟨a, b, rfl, ha⟩ := List.eq_append_cons_of_mem h
    rw [key a b ha, if_pos h, afterFirstDash_append a b ha]
  · simp [SkipFirstPart, Contains, h]

/-- Instance of C6 at the tables that fix non-ASCII runes, `a = "svc"`, `b = "api-v2"`. -/
theorem SkipFirstPart_spec_witness :
    SkipFirstPart CaseTables.trivial "svc-api-v2".toList
      = ToCamelCase CaseTables.trivial "api-v2".toList :=
  (SkipFirstPart_spec CaseTables.trivial).2.1 "svc".toList "api-v2".toList (by decide)

/-- C7: with at least two `-`-delimited segments, `SkipLastPart(s)` returns `s` without its
last `-` and the last segment (`result ++ "-" ++ last = s`, `last` being the last segment,
which holds no `-`); with fewer than two segments it returns `s`; it never fails; the two
examples of the specification evaluate as stated. -/
theorem SkipLastPart_spec :
    (∀ s : Str, 2 ≤ (Split '-' s).length →
      ∃ r last, SkipLastPart s = some r ∧ (Split '-' s).getLast? = some last ∧
        '-' ∉ last ∧ r ++ '-' :: last = s) ∧
    (∀ s : Str, (Split '-' s).length < 2 → SkipLastPart s = some s) ∧
    (∀ s : Str, 2 ≤ (Split '-' s).length ↔ '-' ∈ s) ∧
    SkipLastPart "hello-world-android".toList = some "hello-world".toList ∧
    SkipLastPart "tope".toList = some "tope".toList := by
  refine ⟨?_, ?_, fun s => Split_length_ge_two_iff '-' s, by decide, by decide⟩
  · intro s h
    have hm := (Split_length_ge_two_iff '-' s).mp h
    obtain ⟨a, b, rfl, hb⟩ := exists_last_split '-' s hm
    have hs : Split '-' (a ++ '-' :: b) = Split '-' a ++ [b] := by
      simpa [Split] using splitLoop_snoc '-' a b [] hb
    have hne : Split '-' a ≠ [] := splitLoop_ne_nil '-' a []
    have hlen : ¬ (Split '-' a ++ [b]).length < 2 := by
      have := List.length_pos.mpr hne
      simp only [List.length_append, List.length_singleton]; omega
    refine ⟨a, b, ?_, by simp [hs], hb, rfl⟩
    simp only [SkipLastPart, hs, hlen, if_false, goSlice_init, Join_Split]
  · intro s h
    simp [SkipLastPart, h]

/-- Instance of C7 at `"billing-svc"`. -/
theorem SkipLastPart_spec_witness :
    ∃ r last, SkipLastPart "billing-svc".toList = some r ∧
      (Split '-' "billing-svc".toList).getLast? = some last ∧
      '-' ∉ last ∧ r ++ '-' :: last = "billing-svc".toList :=
  SkipLastPart_spec.1 "billing-svc".toList (by decide)

/-- C9: `ToPascalCase(s)` never fails, for any `s` (empty, with leading, trailing or
repeated `-`, with any first runes), and returns the concatenation, in order and with no
delimiter, of the non-empty `-`-delimited segments of `s`, each with its first rune passed
through `unicode.ToUpper` and its other runes unchanged. -/
theorem ToPascalCase_spec (T : CaseTables) (s : Str) :
    ToPascalCase T s
      = some (((Split '-' s).filter (fun seg => decide (seg ≠ []))).map (capFirst T)).flatten :=
  ToPascalCase_eq T s


theorem goSlice_interior {α : Type} (l : List α) (h : 3 ≤ l.length) :
    goSlice l 1 (l.length - 1) = some l.tail.dropLast := by
  have h1 : 1 ≤ l.length - 1 ∧ l.length - 1 ≤ l.length := by omega
  simp only [goSlice, h1, and_self, if_true, Option.some.injEq]
  cases l with
  | nil => simp at h
  | cons a rest =>
    cases rest with
    | nil => simp at h
    | cons b rest2 => simp [List.dropLast_eq_take]

/-- C8: splitting `s` on `-`: with three or more segments `SkipFirstAndLastParts(s)` is the
interior segments (all but the first and the last) joined with `-` (for
`s = a ++ "-" ++ m ++ "-" ++ b` with no `-` in `a` and `b`, that is `m`); with exactly two
segments it is the second one; with fewer than two it is `s`; it never fails; the three
examples of the specification evaluate as stated. -/
theorem SkipFirstAndLastParts_spec :
    (∀ s : Str, 3 ≤ (Split '-' s).length →
      SkipFirstAndLastParts s = some (Join ['-'] (Split '-' s).tail.dropLast)) ∧
    (∀ s : Str, (Split '-' s).length = 2 →
      ∃ a b, Split '-' s = [a, b] ∧ SkipFirstAndLastParts s = some b) ∧
    (∀ s : Str, (Split '-' s).length < 2 → SkipFirstAndLastParts s = some s) ∧
    (∀ a m b : Str, '-' ∉ a → '-' ∉ b →
      SkipFirstAndLastParts (a ++ '-' :: (m ++ '-' :: b)) = some m) ∧
    SkipFirstAndLastParts "hello-world-golang".toList = some "world".toList ∧
    SkipFirstAndLastParts "hello-world".toList = some "world".toList ∧
    SkipFirstAndLastParts "hello".toList = some "hello".toList := by
  have three : ∀ s : Str, 3 ≤ (Split '-' s).length →
      SkipFirstAndLastParts s = some (Join ['-'] (Split '-' s).tail.dropLast) := by
    intro s h
    have hlt : ¬ (Split '-' s).length < 3 := by omega
    simp only [SkipFirstAndLastParts, hlt, if_false, goSlice_interior _ h]
  refine ⟨three, ?_, ?_, ?_, by decide, by decide, by decide⟩
  · intro s h
    match hs : Split '-' s, h with
    | [a, b], _ =>
      refine ⟨a, b, rfl, ?_⟩
      simp [SkipFirstAndLastParts, hs, goIndex]
  · intro s h
    have h3 : (Split '-' s).length < 3 := by omega
    have h2 : ¬ (Split '-' s).length = 2 := by omega
    simp [SkipFirstAndLastParts, h3, h2]
  · intro a m b ha hb
    have hs : Split '-' (a ++ '-' :: (m ++ '-' :: b)) = a :: (Split '-' m ++ [b]) := by
      have h1 := splitLoop_append '-' a (m ++ '-' :: b) [] ha
      have h2 := splitLoop_snoc '-' m b [] hb
      simp only [Split, h1, h2, List.nil_append]
    have hne : Split '-' m ≠ [] := splitLoop_ne_nil '-' m []
    have hlen : 3 ≤ (Split '-' (a ++ '-' :: (m ++ '-' :: b))).length := by
      have := List.length_pos.mpr hne
      rw [hs]; simp only [List.length_cons, List.length_append, List.length_singleton]; omega
    rw [three _ hlen, hs]
    simp [Join_Split]

/-- Instance of C8 at `"a-b-c-d"`, whose interior is `"b-c"`. -/
theorem SkipFirstAndLastParts_spec_witness :
    SkipFirstAndLastParts "a-b-c-d".toList = some "b-c".toList :=
  SkipFirstAndLastParts_spec.2.2.2.1 "a".toList "b-c".toList "d".toList (by decide) (by decide)


/-! ### Pascal case against camel case -/

theorem fieldsLoop_open (f : Char → Bool) (s cur : Str) (h : cur ≠ []) :
    ∃ x tl, fieldsLoop f cur s = (cur ++ x) :: tl := by
  induction s generalizing cur with
  | nil => exact ⟨[], [], by simp [fieldsLoop, h]⟩
  | cons c cs ih =>
    by_cases hf : f c = true
    · exact ⟨[], fieldsLoop f [] cs, by simp [fieldsLoop, hf, h]⟩
    · obtain ⟨x, tl, hx⟩ := ih (cur ++ [c]) (by simp)
      exact ⟨c :: x, tl, by simp [fieldsLoop, hf, hx]⟩

theorem FieldsFunc_head (name : Str) (c : Char) (h : firstNonDash name = some c) :
    ∃ x tl, FieldsFunc (fun r => r == '-') name = (c :: x) :: tl := by
  induction name with
  | nil => simp [firstNonDash] at h
  | cons d ds ih =>
    by_cases hd : d = '-'
    · have h2 : firstNonDash ds = some c := by
        simpa [firstNonDash, List.find?_cons, hd] using h
      obtain ⟨x, tl, hx⟩ := ih h2
      exact ⟨x, tl, by simpa [FieldsFunc, fieldsLoop, hd] using hx⟩
    · have hc : d = c := by
        simpa [firstNonDash, List.find?_cons, hd] using h
      subst hc
      obtain ⟨x, tl, hx⟩ := fieldsLoop_open (fun r => r == '-') ds [d] (by simp)
      exact ⟨x, tl, by simpa [FieldsFunc, fieldsLoop, hd] using hx⟩

theorem ToPascalCase_eq_fields (T : CaseTables) (s : Str) :
    ToPascalCase T s = some ((FieldsFunc (fun r => r == '-') s).map (capFirst T)).flatten := by
  rw [ToPascalCase_eq, FieldsFunc_eq_filter]

theorem ascii_letter_cases (T : CaseTables) (c : Char) (h : isAsciiLetter c = true) :
    unicodeIsUpper T (unicodeToUpper T c) = true ∧
    unicodeIsLower T (unicodeToLower T (unicodeToUpper T c)) = true := by
  have hc : c = Char.ofNat c.toNat := (Char.ofNat_toNat c).symm
  have hr : (65 ≤ c.toNat ∧ c.toNat ≤ 90) ∨ (97 ≤ c.toNat ∧ c.toNat ≤ 122) := by
    simpa [isAsciiLetter] using h
  generalize c.toNat = n at hc hr
  subst hc
  rcases hr with ⟨h1, h2⟩ | ⟨h1, h2⟩
  · interval_cases n <;> exact ⟨rfl, rfl⟩
  · interval_cases n <;> exact ⟨rfl, rfl⟩

/-- C10 (as amended): for every name that has a rune `c` other than `-` (with or without a
`-` in the name), `ToPascalCase(name)` begins with `unicode.ToUpper(c)`, `ToCamelCase(name)`
is that same string with its first rune passed through `unicode.ToLower`, every later rune
being identical; and when `c`, the first rune of the name other than `-`, is an ASCII
letter, the Pascal form begins with an uppercase letter and the camel form with a
lowercase letter. -/
theorem ToCamelCase_flips_first (T : CaseTables) (name : Str) (c : Char)
    (h : firstNonDash name = some c) :
    ∃ rest, ToPascalCase T name = some (unicodeToUpper T c :: rest) ∧
      ToCamelCase T name = some (unicodeToLower T (unicodeToUpper T c) :: rest) ∧
      (isAsciiLetter c = true →
        unicodeIsUpper T (unicodeToUpper T c) = true ∧
        unicodeIsLower T (unicodeToLower T (unicodeToUpper T c)) = true) := by
  obtain ⟨x, tl, hx⟩ := FieldsFunc_head name c h
  have hp : ToPascalCase T name
      = some (unicodeToUpper T c :: (x ++ (tl.map (capFirst T)).flatten)) := by
    rw [ToPascalCase_eq_fields, hx]
    simp [capFirst]
  refine ⟨x ++ (tl.map (capFirst T)).flatten, hp, ?_, ascii_letter_cases T c⟩
  simp [ToCamelCase, hp]

/-- Instance of C10 (as amended) at `"billing-svc"`: Pascal form `BillingSvc`, camel form
`billingSvc`. -/
theorem ToCamelCase_flips_first_witness :
    firstNonDash "billing-svc".toList = some 'b' ∧
    ∃ rest, ToPascalCase CaseTables.trivial "billing-svc".toList
        = some (unicodeToUpper CaseTables.trivial 'b' :: rest) ∧
      ToCamelCase CaseTables.trivial "billing-svc".toList
        = some (unicodeToLower CaseTables.trivial (unicodeToUpper CaseTables.trivial 'b') :: rest) ∧
      (isAsciiLetter 'b' = true →
        unicodeIsUpper CaseTables.trivial (unicodeToUpper CaseTables.trivial 'b') = true ∧
        unicodeIsLower CaseTables.trivial
          (unicodeToLower CaseTables.trivial (unicodeToUpper CaseTables.trivial 'b')) = true) :=
  ⟨by decide, ToCamelCase_flips_first CaseTables.trivial "billing-svc".toList 'b' (by decide)⟩

/-- C10 fails as stated: the name `"1-2"` contains `-`, and for no case tables does
`ToPascalCase("1-2")`, which is `"12"`, begin with an uppercase letter. -/
theorem ToPascalCase_digit_not_upper :
    '-' ∈ "1-2".toList ∧
    ¬ ∃ (T : CaseTables) (u : Char) (rest : Str),
      ToPascalCase T "1-2".toList = some (u :: rest) ∧ unicodeIsUpper T u = true := by
  refine ⟨by decide, ?_⟩
  rintro ⟨T, u, rest, hp, hu⟩
  have h12 : ToPascalCase T "1-2".toList = some "12".toList := rfl
  rw [h12] at hp
  have hu1 : u = '1' := by
    have := Option.some.inj hp
    simp at this
    exact this.1.symm
  subst hu1
  have hn : unicodeIsUpper T '1' = false := rfl
  rw [hn] at hu
  exact Bool.noConfusion hu


/-! ### strings.Replace on a path cut into pieces -/

theorem HasPrefix_of_clash (old w rest : Str) (h : clash old w = true) :
    HasPrefix (w ++ rest) old = false := by
  induction old generalizing w with
  | nil => simp [clash] at h
  | cons a as ih =>
    cases w with
    | nil => simp [clash] at h
    | cons b bs =>
      simp only [clash, Bool.or_eq_true, decide_eq_true_eq] at h
      by_cases hab : b = a
      · have h2 : clash as bs = true := by
          rcases h with h | h
          · exact absurd hab.symm h
          · exact h
        simp [HasPrefix, hab, ih bs h2]
      · simp [HasPrefix, hab]

theorem HasPrefix_append_self (old rest : Str) : HasPrefix (old ++ rest) old = true := by
  induction old with
  | nil => cases rest <;> simp [HasPrefix]
  | cons a as ih => simp [HasPrefix, ih]

theorem replaceLoop_noHit (old new w rest : Str) (h : noHit old w = true) :
    replaceLoop old new 0 (w ++ rest) = w ++ replaceLoop old new 0 rest := by
  induction w with
  | nil => rfl
  | cons c cs ih =>
    simp only [noHit, Bool.and_eq_true] at h
    have hp := HasPrefix_of_clash old (c :: cs) rest h.1
    simp only [List.cons_append] at hp ⊢
    simp [replaceLoop, hp, ih h.2]

theorem replaceLoop_skip (old new w rest : Str) :
    replaceLoop old new w.length (w ++ rest) = replaceLoop old new 0 rest := by
  induction w with
  | nil => rfl
  | cons c cs ih => simpa [replaceLoop] using ih

theorem replaceLoop_hit (old new rest : Str) (h : old ≠ []) :
    replaceLoop old new 0 (old ++ rest) = new ++ replaceLoop old new 0 rest := by
  cases old with
  | nil => exact absurd rfl h
  | cons a as =>
    have hp := HasPrefix_append_self (a :: as) rest
    simp only [List.cons_append] at hp ⊢
    simp [replaceLoop, hp, replaceLoop_skip]

theorem key_ne_nil (k : Placeholder) : k.key ≠ [] := by
  cases k <;> decide

theorem noHit_key_of_ne (k j : Placeholder) (h : j ≠ k) : noHit k.key j.key = true := by
  cases k <;> cases j <;> first | exact absurd rfl h | decide

theorem noHit_of_inert (k : Placeholder) (s : Str) (h : inert s = true) :
    noHit k.key s = true := by
  simp only [inert, Placeholder.all, List.all_cons, List.all_nil, Bool.and_true,
    Bool.and_eq_true] at h
  cases k
  · exact h.1
  · exact h.2.1
  · exact h.2.2.1
  · exact h.2.2.2.1
  · exact h.2.2.2.2

theorem noHit_of_no_brace (k : Placeholder) (s : Str) (h : '\x7b' ∉ s) :
    noHit k.key s = true := by
  induction s with
  | nil => rfl
  | cons c cs ih =>
    simp only [List.mem_cons, not_or] at h
    have hc : ¬ c = '\x7b' := fun e => h.1 e.symm
    have hcl : clash k.key (c :: cs) = true := by
      cases k <;> simp [Placeholder.key, clash, hc, Ne.symm hc]
    simp [noHit, hcl, ih h.2]

theorem inert_of_no_brace (s : Str) (h : '\x7b' ∉ s) : inert s = true := by
  simp [inert, Placeholder.all, noHit_of_no_brace _ s h]

theorem Replace_pathOf (vals : Placeholder → Str) (k : Placeholder) (ps : List Piece)
    (hp : ∀ p ∈ ps, p.plain = true) :
    Replace (pathOf ps) k.key (vals k) = pathOf (ps.map (Piece.fill vals k)) := by
  have hk : ¬ k.key = [] := key_ne_nil k
  simp only [Replace, hk, if_false]
  induction ps with
  | nil => rfl
  | cons p rest ih =>
    have hr := ih (fun q hq => hp q (by simp [hq]))
    have hpl := hp p (by simp)
    cases p with
    | lit s =>
      have hn := noHit_of_inert k s (by simpa [Piece.plain] using hpl)
      simp only [pathOf, List.map_cons, List.flatten_cons, Piece.text, Piece.fill] at hr ⊢
      rw [replaceLoop_noHit _ _ _ _ hn, hr]
    | ph j =>
      by_cases hj : j = k
      · subst hj
        simp only [pathOf, List.map_cons, List.flatten_cons, Piece.text, Piece.fill,
          if_true] at hr ⊢
        rw [replaceLoop_hit _ _ _ hk, hr]
      · have hn := noHit_key_of_ne k j hj
        simp only [pathOf, List.map_cons, List.flatten_cons, Piece.text, Piece.fill,
          hj, if_false] at hr ⊢
        rw [replaceLoop_noHit _ _ _ _ hn, hr]

theorem fill_plain (vals : Placeholder → Str) (k : Placeholder) (p : Piece)
    (hv : inert (vals k) = true) (hp : p.plain = true) : (p.fill vals k).plain = true := by
  cases p with
  | lit s => exact hp
  | ph j =>
    by_cases hj : j = k
    · simp [Piece.fill, hj, Piece.plain, hv]
    · simp [Piece.fill, hj, Piece.plain]

theorem foldl_fill_lit (vals : Placeholder → Str) (order : List Placeholder) (s : Str) :
    order.foldl (fun q k => Piece.fill vals k q) (.lit s) = .lit s := by
  induction order with
  | nil => rfl
  | cons k rest ih => simpa [Piece.fill] using ih

theorem foldl_fill_ph (vals : Placeholder → Str) (order : List Placeholder) (j : Placeholder)
    (h : j ∈ order) :
    order.foldl (fun q k => Piece.fill vals k q) (.ph j) = .lit (vals j) := by
  induction order with
  | nil => simp at h
  | cons k rest ih =>
    by_cases hj : j = k
    · subst hj
      have := foldl_fill_lit vals rest (vals j)
      simp only [List.foldl_cons, Piece.fill, if_true]
      exact this
    · have hm : j ∈ rest := by
        rcases List.mem_cons.mp h with h | h
        · exact absurd h hj
        · exact h
      simpa [Piece.fill, hj] using ih hm

theorem replaceAll_pathOf (vals : Placeholder → Str) (order : List Placeholder)
    (ps : List Piece) (hv : ∀ k, inert (vals k) = true) (hp : ∀ p ∈ ps, p.plain = true) :
    replaceAll vals order (pathOf ps)
      = pathOf (ps.map (fun p => order.foldl (fun q k => Piece.fill vals k q) p)) := by
  induction order generalizing ps with
  | nil => simp [replaceAll]
  | cons k rest ih =>
    have h1 := Replace_pathOf vals k ps hp
    have h2 : ∀ p ∈ ps.map (Piece.fill vals k), p.plain = true := by
      intro p hmem
      obtain ⟨q, hq, rfl⟩ := List.mem_map.mp hmem
      exact fill_plain vals k q (hv k) (hp q hq)
    have h3 := ih (ps.map (Piece.fill vals k)) h2
    simp only [replaceAll, List.foldl_cons] at h3 ⊢
    rw [h1, h3, List.map_map]
    rfl

/-- On a path made of keys and of text in which no key can start, with values in which no
key can start, the loop of `replacePathName` yields the simultaneous substitution,
whatever the order in which it meets the keys. -/
theorem replaceAll_eq_substAll (vals : Placeholder → Str) (order : List Placeholder)
    (ps : List Piece) (hv : ∀ k, inert (vals k) = true) (hp : ∀ p ∈ ps, p.plain = true)
    (ho : ∀ k, k ∈ order) :
    replaceAll vals order (pathOf ps) = substAll vals ps := by
  rw [replaceAll_pathOf vals order ps hv hp]
  simp only [pathOf, substAll, List.map_map]
  congr 1
  apply List.map_congr_left
  intro p _
  cases p with
  | lit s => simp [foldl_fill_lit, Piece.text, Piece.subst]
  | ph j => simp [foldl_fill_ph vals order j (ho j), Piece.text, Piece.subst]

theorem mem_of_perm_all (order : List Placeholder) (h : order.Perm Placeholder.all)
    (k : Placeholder) : k ∈ order := by
  rw [h.mem_iff]
  cases k <;> simp [Placeholder.all]


theorem Replace_of_noHit (old new p : Str) (ho : old ≠ []) (h : noHit old p = true) :
    Replace p old new = p := by
  have := replaceLoop_noHit old new p [] h
  simp only [List.append_nil] at this
  simp [Replace, ho, this, replaceLoop]

theorem replaceAll_of_inert (vals : Placeholder → Str) (order : List Placeholder) (p : Str)
    (h : inert p = true) : replaceAll vals order p = p := by
  induction order with
  | nil => rfl
  | cons k rest ih =>
    simp only [replaceAll, List.foldl_cons] at ih ⊢
    rw [Replace_of_noHit _ _ _ (key_ne_nil k) (noHit_of_inert k p h), ih]

/-! ### Claims on the path renamer -/

/-- C2 fails as stated: the map of replacements has five keys and none for the
skip-last-part form. For the name `hello-world-android`, whatever the case tables and the
order of the map traversal, the path `{{Name_SkipLastPart}}/x` is returned unchanged,
although `SkipLastPart` of the name is `hello-world`. -/
theorem replacePathName_leaves_SkipLastPart :
    (∀ (T : CaseTables) (order : List Placeholder),
      replacePathName T order "hello-world-android".toList
          "\x7b\x7bName_SkipLastPart\x7d\x7d/x".toList
        = some "\x7b\x7bName_SkipLastPart\x7d\x7d/x".toList) ∧
    SkipLastPart "hello-world-android".toList = some "hello-world".toList := by
  refine ⟨?_, by decide⟩
  intro T order
  have hv : (replacements T "hello-world-android".toList).isSome = true := rfl
  obtain ⟨vals, hvals⟩ := Option.isSome_iff_exists.mp hv
  simp only [replacePathName, hvals]
  rw [replaceAll_of_inert vals order _ (by decide)]

/-- C2 (as amended): `replacePathName` knows five placeholders, `{{Name}}`,
`{{Name_SkipFirstPart}}`, `{{Name_SkipFirstAndLastPart}}`, `{{Name_ToPascalCase}}` and
`{{Name_ToCamelCase}}`. When the four derived values of the name can be computed, and
neither they nor the name nor the text of the path between placeholder occurrences holds
a position from which one of the five placeholders could start, every occurrence of each
placeholder is replaced by its value (the name, `SkipFirstPart`, `SkipFirstAndLastParts`,
`ToPascalCase`, `ToCamelCase` of the name, in that order) and the rest of the path is kept,
for every order of the map traversal. There is no placeholder for `SkipLastPart`: the text
`{{Name_SkipLastPart}}` is such inert text and stays as it is. -/
theorem replacePathName_five_placeholders (T : CaseTables) (order : List Placeholder)
    (name v1 v2 v3 v4 : Str) (ps : List Piece)
    (ho : order.Perm Placeholder.all)
    (h1 : SkipFirstPart T name = some v1) (h2 : SkipFirstAndLastParts name = some v2)
    (h3 : ToPascalCase T name = some v3) (h4 : ToCamelCase T name = some v4)
    (hv : inert name = true ∧ inert v1 = true ∧ inert v2 = true ∧ inert v3 = true ∧
      inert v4 = true)
    (hp : ∀ s, Piece.lit s ∈ ps → inert s = true) :
    replacePathName T order name (pathOf ps)
        = some (ps.map (fun p =>
            match p with
            | .lit s => s
            | .ph .name => name
            | .ph .skipFirstPart => v1
            | .ph .skipFirstAndLastPart => v2
            | .ph .toPascalCase => v3
            | .ph .toCamelCase => v4)).flatten ∧
    inert "\x7b\x7bName_SkipLastPart\x7d\x7d".toList = true := by
  refine ⟨?_, by decide⟩
  have hvals : replacements T name = some (fun k =>
      match k with
      | .name => name
      | .skipFirstPart => v1
      | .skipFirstAndLastPart => v2
      | .toPascalCase => v3
      | .toCamelCase => v4) := by
    simp only [replacements, h1, h2, h3, h4]
  have hin : ∀ k : Placeholder, inert ((fun k =>
      match k with
      | .name => name
      | .skipFirstPart => v1
      | .skipFirstAndLastPart => v2
      | .toPascalCase => v3
      | .toCamelCase => v4) k) = true := by
    intro k
    cases k
    · exact hv.1
    · exact hv.2.1
    · exact hv.2.2.1
    · exact hv.2.2.2.1
    · exact hv.2.2.2.2
  have hpl : ∀ p ∈ ps, p.plain = true := by
    intro p hmem
    cases p with
    | lit s => exact hp s hmem
    | ph j => rfl
  simp only [replacePathName, hvals]
  rw [replaceAll_eq_substAll _ order ps hin hpl (mem_of_perm_all order ho)]
  simp only [substAll, Option.some.injEq]
  congr 1
  apply List.map_congr_left
  intro p _
  cases p with
  | lit s => rfl
  | ph j => cases j <;> rfl

/-- Instance of C2 (as amended): name `hello-world-android`, path
`{{Name}}/{{Name_SkipLastPart}}/{{Name_SkipFirstPart}}.go`, which becomes
`hello-world-android/{{Name_SkipLastPart}}/worldAndroid.go`. -/
theorem replacePathName_five_placeholders_witness :
    replacePathName CaseTables.trivial Placeholder.all "hello-world-android".toList
        (pathOf [.ph .name, .lit "/\x7b\x7bName_SkipLastPart\x7d\x7d/".toList,
          .ph .skipFirstPart, .lit ".go".toList])
        = some ([Piece.ph .name, .lit "/\x7b\x7bName_SkipLastPart\x7d\x7d/".toList,
            .ph .skipFirstPart, .lit ".go".toList].map (fun p =>
            match p with
            | .lit s => s
            | .ph .name => "hello-world-android".toList
            | .ph .skipFirstPart => "worldAndroid".toList
            | .ph .skipFirstAndLastPart => "world".toList
            | .ph .toPascalCase => "HelloWorldAndroid".toList
            | .ph .toCamelCase => "helloWorldAndroid".toList)).flatten ∧
    inert "\x7b\x7bName_SkipLastPart\x7d\x7d".toList = true :=
  replacePathName_five_placeholders CaseTables.trivial Placeholder.all
    "hello-world-android".toList "worldAndroid".toList "world".toList
    "HelloWorldAndroid".toList "helloWorldAndroid".toList _ (List.Perm.refl _)
    (by decide) (by decide) (by decide) (by decide) (by decide)
    (by
      intro s hs
      simp at hs
      rcases hs with rfl | rfl <;> decide)

/-- C3 fails as stated: for the name `_` and the path `{{Name{{Name}}SkipFirstPart}}`, the
traversal in source order gives `_` (the `_` put in place of `{{Name}}` completes an
occurrence of `{{Name_SkipFirstPart}}`, which is then replaced), the traversal in the
reverse order gives `{{Name_SkipFirstPart}}`; both orders are permutations of the keys. -/
theorem replacePathName_order_dependent :
    Placeholder.all.reverse.Perm Placeholder.all ∧
    (∀ T : CaseTables,
      replacePathName T Placeholder.all "_".toList
          "\x7b\x7bName\x7b\x7bName\x7d\x7dSkipFirstPart\x7d\x7d".toList
        = some "_".toList) ∧
    (∀ T : CaseTables,
      replacePathName T Placeholder.all.reverse "_".toList
          "\x7b\x7bName\x7b\x7bName\x7d\x7dSkipFirstPart\x7d\x7d".toList
        = some "\x7b\x7bName_SkipFirstPart\x7d\x7d".toList) :=
  ⟨List.reverse_perm _, fun _ => rfl, fun _ => rfl⟩

/-- C3 (as amended): when no replacement value of the name contains `{`, and the path is
made of occurrences of the five keys and of stretches of text without `{`, then for
every order in which the loop meets the keys (every permutation of them) `replacePathName`
returns the single simultaneous substitution: each key occurrence replaced by its value,
every other stretch unchanged; it fails exactly when the computation of the values fails. -/
theorem replacePathName_simultaneous (T : CaseTables) (order : List Placeholder)
    (name : Str) (ps : List Piece)
    (ho : order.Perm Placeholder.all)
    (hv : ∀ vals, replacements T name = some vals → ∀ k, '\x7b' ∉ vals k)
    (hp : ∀ s, Piece.lit s ∈ ps → '\x7b' ∉ s) :
    replacePathName T order name (pathOf ps)
      = (replacements T name).map (fun vals => substAll vals ps) := by
  cases hvals : replacements T name with
  | none => simp [replacePathName, hvals]
  | some vals =>
    have h1 : ∀ k, inert (vals k) = true := fun k => inert_of_no_brace _ (hv vals hvals k)
    have h2 : ∀ p ∈ ps, p.plain = true := by
      intro p hmem
      cases p with
      | lit s => exact inert_of_no_brace s (hp s hmem)
      | ph j => rfl
    simp only [replacePathName, hvals, Option.map_some']
    rw [replaceAll_eq_substAll vals order ps h1 h2 (mem_of_perm_all order ho)]

/-- Instance of C3 (as amended): name `billing-svc`, path
`/tmp/{{Name}}/{{Name_ToPascalCase}}.go`, keys met in reverse source order. -/
theorem replacePathName_simultaneous_witness :
    replacePathName CaseTables.trivial Placeholder.all.reverse "billing-svc".toList
        (pathOf [.lit "/tmp/".toList, .ph .name, .lit "/".toList, .ph .toPascalCase,
          .lit ".go".toList])
      = (replacements CaseTables.trivial "billing-svc".toList).map
          (fun vals => substAll vals [.lit "/tmp/".toList, .ph .name, .lit "/".toList,
            .ph .toPascalCase, .lit ".go".toList]) :=
  replacePathName_simultaneous CaseTables.trivial Placeholder.all.reverse
    "billing-svc".toList _ (List.reverse_perm _)
    (by
      intro vals h k
      have hs : replacements CaseTables.trivial "billing-svc".toList
          = some (fun k => match k with
            | .name => "billing-svc".toList
            | .skipFirstPart => "svc".toList
            | .skipFirstAndLastPart => "svc".toList
            | .toPascalCase => "BillingSvc".toList
            | .toCamelCase => "billingSvc".toList) := rfl
      rw [hs] at h
      cases h
      cases k <;> decide)
    (by
      intro s hs
      simp at hs
      rcases hs with rfl | rfl | rfl <;> decide)


/-! ### The visitor -/

theorem StringInSlice_iff (a : Str) (l : List Str) : StringInSlice a l = true ↔ a ∈ l := by
  induction l with
  | nil => simp [StringInSlice]
  | cons b rest ih =>
    by_cases hb : b = a
    · simp [StringInSlice, hb]
    · have hb2 : ¬ a = b := fun e => hb e.symm
      simp [StringInSlice, hb, hb2, ih]

theorem HasPrefix_iff (s pre : Str) : HasPrefix s pre = true ↔ ∃ t, s = pre ++ t := by
  induction pre generalizing s with
  | nil => cases s <;> simp [HasPrefix]
  | cons p ps ih =>
    cases s with
    | nil => simp [HasPrefix]
    | cons c cs =>
      simp only [HasPrefix, Bool.and_eq_true, decide_eq_true_eq, ih, List.cons_append,
        List.cons.injEq]
      constructor
      · rintro ⟨h1, t, h2⟩
        exact ⟨t, h1, h2⟩
      · rintro ⟨t, h1, h2⟩
        exact ⟨h1, t, h2⟩

theorem TrimPrefix_append (s pre : Str) (h : HasPrefix s pre = true) :
    pre ++ TrimPrefix s pre = s := by
  obtain ⟨t, rfl⟩ := (HasPrefix_iff s pre).mp h
  simp [TrimPrefix, h]

theorem TrimPrefix_eq_self (s pre : Str) (h : HasPrefix s pre = false) :
    TrimPrefix s pre = s := by
  simp [TrimPrefix, h]

theorem TrimPrefix_suffix (s pre : Str) : ∃ x, s = x ++ TrimPrefix s pre := by
  cases h : HasPrefix s pre with
  | true => exact ⟨pre, (TrimPrefix_append s pre h).symm⟩
  | false => exact ⟨[], by simp [TrimPrefix_eq_self s pre h]⟩

theorem extLoop_ne_nil (rv acc : Str) (h : extLoop rv acc ≠ []) :
    ∃ e tl, rv = e ++ '.' :: tl ∧ '/' ∉ e := by
  induction rv generalizing acc with
  | nil => simp [extLoop] at h
  | cons c rest ih =>
    by_cases hs : c = '/'
    · simp [extLoop, hs] at h
    · by_cases hd : c = '.'
      · exact ⟨[], rest, by simp [hd], by simp⟩
      · simp only [extLoop, hs, hd, if_false] at h
        obtain ⟨e, tl, he, hne⟩ := ih _ h
        refine ⟨c :: e, tl, by simp [he], ?_⟩
        simp only [List.mem_cons, not_or]
        exact ⟨fun e2 => hs e2.symm, hne⟩

theorem dot_mem_Base (t r x : Str) (hx : r = x ++ t) (h : Ext t ≠ []) : '.' ∈ Base r := by
  obtain ⟨e, tl, he, hne⟩ := extLoop_ne_nil t.reverse [] h
  have hr : r.reverse = e ++ '.' :: (tl ++ x.reverse) := by
    rw [hx, List.reverse_append, he]; simp
  have hrne : ¬ r = [] := by
    intro h0
    rw [h0] at hr
    cases e <;> simp at hr
  have hdrop : r.reverse.dropWhile (fun c => c == '/') = r.reverse := by
    rw [hr]
    cases e with
    | nil => simp [List.dropWhile]
    | cons c cs =>
      simp only [List.mem_cons, not_or] at hne
      have hc : (c == '/') = false := by simpa using fun e2 : c = '/' => hne.1 e2.symm
      simp only [List.cons_append, List.dropWhile_cons, hc]
      rfl
  have htake : r.reverse.takeWhile (fun c => c != '/')
      = e ++ '.' :: (tl ++ x.reverse).takeWhile (fun c => c != '/') := by
    rw [hr, List.takeWhile_append_of_pos]
    · simp [List.takeWhile_cons]
    · intro c hc
      have : ¬ c = '/' := fun e2 => hne (e2 ▸ hc)
      simp [this]
  simp only [Base, hrne, if_false, hdrop, htake]
  simp

theorem extLoop_cut (a b acc : Str) :
    extLoop (a ++ '/' :: b) acc = extLoop (a ++ ['/']) acc := by
  induction a generalizing acc with
  | nil => simp [extLoop]
  | cons c rest ih =>
    by_cases hs : c = '/'
    · simp [extLoop, hs]
    · by_cases hd : c = '.'
      · simp [extLoop, hd]
      · simp [extLoop, hs, hd, ih]

theorem Ext_under_root (rootPath rel : Str) :
    Ext (TrimPrefix (rootPath ++ '/' :: rel) rootPath) = Ext (rootPath ++ '/' :: rel) := by
  have hp : HasPrefix (rootPath ++ '/' :: rel) rootPath = true :=
    (HasPrefix_iff _ _).mpr ⟨_, rfl⟩
  have ht : TrimPrefix (rootPath ++ '/' :: rel) rootPath = '/' :: rel := by
    simp [TrimPrefix, hp]
  rw [ht]
  simp only [Ext, List.reverse_append, List.reverse_cons, List.append_assoc,
    List.singleton_append]
  rw [extLoop_cut rel.reverse rootPath.reverse, extLoop_cut rel.reverse []]

theorem VisitAndModifyFilesWith_file (S : Sets) (H : Host) (rootPath path : Str)
    (data : TemplateData) (renamed : Str) (content : List Nat)
    (hren : replacePathName H.tables H.order data.Name path = some renamed)
    (hread : H.readFile path = .ok content) :
    VisitAndModifyFilesWith S H rootPath path data false none
      = if (StringInSlice (ToLower H.tables (Ext (TrimPrefix renamed rootPath))) S.extensions
            || StringInSlice (Base renamed) S.files) = true then
          match H.render data content with
          | .error e => .fail e
          | .ok out => .ok [(TrimPrefix renamed rootPath, ⟨out, "text".toList⟩)]
        else if StringInSlice (ToLower H.tables (Ext (TrimPrefix renamed rootPath)))
            S.base64Extensions = true then
          .ok [(TrimPrefix renamed rootPath,
            ⟨asciiBytes (base64Encode content), "base64".toList⟩)]
        else .ok [(TrimPrefix renamed rootPath, ⟨content, "text".toList⟩)] := by
  simp only [VisitAndModifyFilesWith, hren, hread, Bool.not_false, if_true]

theorem VisitAndModifyFilesWith_ok (S : Sets) (H : Host) (rootPath path : Str)
    (data : TemplateData) (renamed : Str) (m : FileMap)
    (hren : replacePathName H.tables H.order data.Name path = some renamed)
    (h : VisitAndModifyFilesWith S H rootPath path data false none = .ok m) :
    ∃ fd, m = [(TrimPrefix renamed rootPath, fd)] ∧
      (fd.Encoding = "base64".toList →
        (StringInSlice (ToLower H.tables (Ext (TrimPrefix renamed rootPath))) S.extensions
          || StringInSlice (Base renamed) S.files) = false) := by
  cases hread : H.readFile path with
  | error e => simp [VisitAndModifyFilesWith, hren, hread] at h
  | ok content =>
    rw [VisitAndModifyFilesWith_file S H rootPath path data renamed content hren hread] at h
    split at h
    · rename_i ht
      cases hr : H.render data content with
      | error e => simp [hr] at h
      | ok out =>
        simp only [hr, Outcome.ok.injEq] at h
        refine ⟨_, h.symm, fun hb => ?_⟩
        have hne : ¬ "text".toList = "base64".toList := by decide
        exact absurd hb hne
    · rename_i ht
      split at h
      · simp only [Outcome.ok.injEq] at h
        exact ⟨_, h.symm, fun _ => by simpa using ht⟩
      · simp only [Outcome.ok.injEq] at h
        exact ⟨_, h.symm, fun _ => by simpa using ht⟩

/-! ### The base64 encoding read back -/

theorem base64Value_digit (n : Nat) : base64Value (base64Digit n) = some (n % 64) := by
  have h : n % 64 < 64 := Nat.mod_lt _ (by decide)
  simp only [base64Digit]
  generalize n % 64 = m at h
  interval_cases m <;> rfl

theorem base64Digit_ne_pad (n : Nat) : base64Digit n ≠ '=' := by
  have h : n % 64 < 64 := Nat.mod_lt _ (by decide)
  simp only [base64Digit]
  generalize n % 64 = m at h
  interval_cases m <;> decide

theorem base64Decode_encode : ∀ bs : List Nat,
    base64Decode (base64Encode bs) = some (bs.map (fun b => b % 256))
  | [] => rfl
  | [a] => by
    simp only [base64Encode, base64Decode, base64Value_digit, if_true, List.map_cons,
      List.map_nil, Option.some.injEq, List.cons.injEq, and_true]
    omega
  | [a, b] => by
    simp only [base64Encode, base64Decode, base64Value_digit, base64Digit_ne_pad, if_true,
      if_false, List.map_cons, List.map_nil, Option.some.injEq, List.cons.injEq, and_true]
    constructor <;> omega
  | a :: b :: c :: rest => by
    have ih := base64Decode_encode rest
    simp only [base64Encode, List.cons_append, List.nil_append, base64Decode,
      base64Value_digit, base64Digit_ne_pad, if_false, List.append_eq, ih, List.map_cons,
      Option.some.injEq, List.cons.injEq, and_true]
    refine ⟨?_, ?_, ?_⟩ <;> omega

theorem base64Encode_length : ∀ bs : List Nat,
    (base64Encode bs).length = 4 * ((bs.length + 2) / 3)
  | [] => rfl
  | [_] => by simp [base64Encode]
  | [_, _] => by simp [base64Encode]
  | _ :: _ :: _ :: rest => by
    have ih := base64Encode_length rest
    simp only [base64Encode, List.cons_append, List.nil_append, List.length_cons, ih]
    omega

theorem base64Encode_vectors :
    base64Encode (asciiBytes "".toList) = "".toList ∧
    base64Encode (asciiBytes "f".toList) = "Zg==".toList ∧
    base64Encode (asciiBytes "fo".toList) = "Zm8=".toList ∧
    base64Encode (asciiBytes "foo".toList) = "Zm9v".toList ∧
    base64Encode (asciiBytes "foob".toList) = "Zm9vYg==".toList ∧
    base64Encode (asciiBytes "fooba".toList) = "Zm9vYmE=".toList ∧
    base64Encode (asciiBytes "foobar".toList) = "Zm9vYmFy".toList ∧
    base64Encode [255, 239, 190] = "/+++".toList := by
  decide


theorem replacePathName_readme (T : CaseTables) (order : List Placeholder)
    (ho : order.Perm Placeholder.all) :
    replacePathName T order "billing-svc".toList
        "/tmp/\x7b\x7bName\x7d\x7d/README.md".toList
      = some "/tmp/billing-svc/README.md".toList := by
  have hs : replacements T "billing-svc".toList
      = some (fun k => match k with
        | .name => "billing-svc".toList
        | .skipFirstPart => "svc".toList
        | .skipFirstAndLastPart => "svc".toList
        | .toPascalCase => "BillingSvc".toList
        | .toCamelCase => "billingSvc".toList) := rfl
  have hpath : "/tmp/\x7b\x7bName\x7d\x7d/README.md".toList
      = pathOf [.lit "/tmp/".toList, .ph .name, .lit "/README.md".toList] := rfl
  simp only [replacePathName, hs, hpath]
  rw [replaceAll_eq_substAll _ order _ (by intro k; cases k <;> decide)
    (by intro p hp; simp at hp; rcases hp with rfl | rfl | rfl <;> decide)
    (mem_of_perm_all order ho)]
  rfl

/-! ### Claims on the visitor -/

/-- The visitor at a root that holds a placeholder, `rootPath = /tmp/{{Name}}`,
`path = /tmp/{{Name}}/README.md`, name `billing-svc`: the path is renamed to
`/tmp/billing-svc/README.md` before the prefix is stripped, the unrenamed `rootPath` is
no prefix of it, and the stripping the code attempts removes nothing. On the sample host
the single key is `/tmp/billing-svc/README.md`, and on no host is it `README.md`. -/
theorem VisitAndModifyFiles_key_not_relative :
    (¬ ∃ (H : Host) (fd : FileData), H.order.Perm Placeholder.all ∧
      VisitAndModifyFiles H "/tmp/\x7b\x7bName\x7d\x7d".toList
          "/tmp/\x7b\x7bName\x7d\x7d/README.md".toList ⟨"billing-svc".toList, 8080⟩
          false none
        = .ok [("README.md".toList, fd)]) ∧
    VisitAndModifyFiles (Host.sample [80]) "/tmp/\x7b\x7bName\x7d\x7d".toList
        "/tmp/\x7b\x7bName\x7d\x7d/README.md".toList ⟨"billing-svc".toList, 8080⟩
        false none
      = .ok [("/tmp/billing-svc/README.md".toList, ⟨[80], "text".toList⟩)] := by
  refine ⟨?_, rfl⟩
  rintro ⟨H, fd, ho, h⟩
  have hren := replacePathName_readme H.tables H.order ho
  obtain ⟨fd2, hm, _⟩ := VisitAndModifyFilesWith_ok defaultSets H _ _
    ⟨"billing-svc".toList, 8080⟩ _ _ hren h
  have hk : TrimPrefix "/tmp/billing-svc/README.md".toList "/tmp/\x7b\x7bName\x7d\x7d".toList
      = "/tmp/billing-svc/README.md".toList := by decide
  rw [hk] at hm
  have hkey := congrArg (fun m : FileMap => m.map Prod.fst) hm
  simp at hkey

theorem TrimPrefix_append_left (pre rest : Str) : TrimPrefix (pre ++ rest) pre = rest := by
  have hp : HasPrefix (pre ++ rest) pre = true := (HasPrefix_iff _ _).mpr ⟨rest, rfl⟩
  simp [TrimPrefix, hp]

/-- C1 fails as stated: the key keeps the separator that follows `rootPath`. For the file
`README.md` directly below the root `/tmp/tmpl-main` and the name `billing-svc`, the
single key is `/README.md` on the sample host, and on no host (case tables, order of the
map traversal, file content, renderer) is it the repository-relative path `README.md`. -/
theorem VisitAndModifyFiles_key_keeps_separator :
    VisitAndModifyFiles (Host.sample [80]) "/tmp/tmpl-main".toList
        "/tmp/tmpl-main/README.md".toList ⟨"billing-svc".toList, 8080⟩ false none
      = .ok [("/README.md".toList, ⟨[80], "text".toList⟩)] ∧
    ¬ ∃ (H : Host) (fd : FileData),
      VisitAndModifyFiles H "/tmp/tmpl-main".toList
          "/tmp/tmpl-main/README.md".toList ⟨"billing-svc".toList, 8080⟩ false none
        = .ok [("README.md".toList, fd)] := by
  refine ⟨rfl, ?_⟩
  rintro ⟨H, fd, h⟩
  have hv : (replacements H.tables "billing-svc".toList).isSome = true := rfl
  obtain ⟨vals, hvals⟩ := Option.isSome_iff_exists.mp hv
  have hren : replacePathName H.tables H.order "billing-svc".toList
      "/tmp/tmpl-main/README.md".toList = some "/tmp/tmpl-main/README.md".toList := by
    simp only [replacePathName, hvals]
    rw [replaceAll_of_inert vals H.order _ (by decide)]
  obtain ⟨fd2, hm, _⟩ := VisitAndModifyFilesWith_ok defaultSets H _ _
    ⟨"billing-svc".toList, 8080⟩ _ _ hren h
  have hk : TrimPrefix "/tmp/tmpl-main/README.md".toList "/tmp/tmpl-main".toList
      = "/README.md".toList := by decide
  rw [hk] at hm
  have hkey := congrArg (fun m : FileMap => m.map Prod.fst) hm
  simp at hkey

/-- C1 (as amended): for every regular file visited with no incoming error whose renamed
path begins with `rootPath` (as given; it is not renamed), `renamed = rootPath ++ rest`,
and which is read and (when it is classified as a template) rendered without failure, the
returned map has exactly one entry, and its key is `rest`, the renamed path with the
`rootPath` prefix stripped: the separator that follows `rootPath` stays at the head of the
key. -/
theorem VisitAndModifyFiles_key (H : Host) (rootPath path : Str) (data : TemplateData)
    (rest : Str) (content : List Nat)
    (hren : replacePathName H.tables H.order data.Name path = some (rootPath ++ rest))
    (hread : H.readFile path = .ok content)
    (hrender : (StringInSlice (ToLower H.tables (Ext rest)) defaultExtensions
          || StringInSlice (Base (rootPath ++ rest)) defaultFiles) = true →
        ∃ out, H.render data content = .ok out) :
    ∃ fd, VisitAndModifyFiles H rootPath path data false none = .ok [(rest, fd)] := by
  rw [VisitAndModifyFiles, VisitAndModifyFilesWith_file defaultSets H rootPath path data
    (rootPath ++ rest) content hren hread, TrimPrefix_append_left]
  split
  · rename_i ht
    obtain ⟨out, hout⟩ := hrender ht
    exact ⟨⟨out, "text".toList⟩, by simp only [hout]⟩
  · split
    · exact ⟨_, rfl⟩
    · exact ⟨_, rfl⟩

/-- Instance of C1 (as amended): root `/tmp/tmpl-main`, file
`/tmp/tmpl-main/{{Name}}/README.md`, name `billing-svc`; the key is
`/billing-svc/README.md`. -/
theorem VisitAndModifyFiles_key_witness :
    ∃ fd, VisitAndModifyFiles (Host.sample [80]) "/tmp/tmpl-main".toList
        "/tmp/tmpl-main/\x7b\x7bName\x7d\x7d/README.md".toList
        ⟨"billing-svc".toList, 8080⟩ false none
      = .ok [("/billing-svc/README.md".toList, fd)] :=
  VisitAndModifyFiles_key (Host.sample [80]) "/tmp/tmpl-main".toList
    "/tmp/tmpl-main/\x7b\x7bName\x7d\x7d/README.md".toList ⟨"billing-svc".toList, 8080⟩
    "/billing-svc/README.md".toList [80] (by decide) rfl (fun _ => ⟨[80], rfl⟩)

/-- The base64 branch in terms of what the visitor inspects: when the lower-cased
extension of the renamed path after `TrimPrefix` is in the base64 set, neither template
test holds and the entry is the base64 text of the bytes, for every renderer. -/
theorem VisitAndModifyFiles_base64_of_key_ext (T : CaseTables) (order : List Placeholder)
    (readFile : Str → Except Str (List Nat)) (rootPath path : Str) (data : TemplateData)
    (renamed : Str) (content : List Nat)
    (hren : replacePathName T order data.Name path = some renamed)
    (hread : readFile path = .ok content)
    (hext : StringInSlice (ToLower T (Ext (TrimPrefix renamed rootPath)))
      defaultBase64Extensions = true) :
    (∀ render : TemplateData → List Nat → Except Str (List Nat),
      VisitAndModifyFiles ⟨T, order, readFile, render⟩ rootPath path data false none
        = .ok [(TrimPrefix renamed rootPath,
            ⟨asciiBytes (base64Encode content), "base64".toList⟩)]) ∧
    (∀ rel, renamed = rootPath ++ '/' :: rel →
      Ext (TrimPrefix renamed rootPath) = Ext renamed) := by
  refine ⟨?_, fun rel h => by rw [h]; exact Ext_under_root rootPath rel⟩
  intro render
  have hmem := (StringInSlice_iff _ _).mp hext
  have h1 : StringInSlice (ToLower T (Ext (TrimPrefix renamed rootPath))) defaultExtensions
      = false := by
    simp only [defaultBase64Extensions, List.map_cons, List.map_nil, List.mem_cons,
      List.not_mem_nil, or_false] at hmem
    rcases hmem with h | h | h | h <;> rw [h] <;> decide
  have hne : Ext (TrimPrefix renamed rootPath) ≠ [] := by
    intro h0
    rw [h0] at hmem
    have hnil : ToLower T [] = [] := rfl
    rw [hnil] at hmem
    exact absurd hmem (by decide)
  obtain ⟨x, hx⟩ := TrimPrefix_suffix renamed rootPath
  have hdot := dot_mem_Base _ renamed x hx hne
  have h2 : StringInSlice (Base renamed) defaultFiles = false := by
    cases hb : StringInSlice (Base renamed) defaultFiles with
    | false => rfl
    | true =>
      have hm := (StringInSlice_iff _ _).mp hb
      simp only [defaultFiles, List.map_cons, List.map_nil, List.mem_cons,
        List.not_mem_nil, or_false] at hm
      rcases hm with h | h <;> rw [h] at hdot <;> exact absurd hdot (by decide)
  rw [VisitAndModifyFiles, VisitAndModifyFilesWith_file defaultSets
    ⟨T, order, readFile, render⟩ rootPath path data renamed content hren hread]
  simp only [defaultSets, h1, h2, Bool.or_false, hext, if_true]
  rfl

/-- C4 fails as stated: for `rootPath = path = /tmp/t/a.png` (the root of the walk is
itself a regular file) the renamed path `/tmp/t/a.png` has the extension `.png`, which is
in the base64 set, but the visitor takes the extension after `rootPath` is stripped, of
the empty key: on the sample host the entry has the key `""`, the bytes as they are and
the encoding `text`, and on no host is an entry tagged `base64` returned. -/
theorem VisitAndModifyFiles_root_file_is_text :
    StringInSlice (ToLower CaseTables.trivial (Ext "/tmp/t/a.png".toList))
      defaultBase64Extensions = true ∧
    VisitAndModifyFiles (Host.sample [1, 2, 3]) "/tmp/t/a.png".toList "/tmp/t/a.png".toList
        ⟨"x".toList, -1⟩ false none
      = .ok [("".toList, ⟨[1, 2, 3], "text".toList⟩)] ∧
    ¬ ∃ (H : Host) (key : Str) (fd : FileData), fd.Encoding = "base64".toList ∧
      VisitAndModifyFiles H "/tmp/t/a.png".toList "/tmp/t/a.png".toList
          ⟨"x".toList, -1⟩ false none
        = .ok [(key, fd)] := by
  refine ⟨by decide, rfl, ?_⟩
  rintro ⟨H, key, fd, henc, h⟩
  have hv : (replacements H.tables "x".toList).isSome = true := rfl
  obtain ⟨vals, hvals⟩ := Option.isSome_iff_exists.mp hv
  have hren : replacePathName H.tables H.order "x".toList "/tmp/t/a.png".toList
      = some "/tmp/t/a.png".toList := by
    simp only [replacePathName, hvals]
    rw [replaceAll_of_inert vals H.order _ (by decide)]
  cases hread : H.readFile "/tmp/t/a.png".toList with
  | error e =>
    have hf : VisitAndModifyFiles H "/tmp/t/a.png".toList "/tmp/t/a.png".toList
        ⟨"x".toList, -1⟩ false none = .fail e := by
      simp only [VisitAndModifyFiles, VisitAndModifyFilesWith, hren, hread, Bool.not_false,
        if_true]
    rw [hf] at h
    exact Outcome.noConfusion h
  | ok content =>
    have hext : ToLower H.tables (Ext (TrimPrefix "/tmp/t/a.png".toList "/tmp/t/a.png".toList))
        = [] := rfl
    have hbase : Base "/tmp/t/a.png".toList = "a.png".toList := by decide
    rw [VisitAndModifyFiles, VisitAndModifyFilesWith_file defaultSets H _ _
      ⟨"x".toList, -1⟩ _ content hren hread, hext, hbase] at h
    have h1 : StringInSlice [] defaultSets.extensions = false := by decide
    have h2 : StringInSlice "a.png".toList defaultSets.files = false := by decide
    have h3 : StringInSlice [] defaultSets.base64Extensions = false := by decide
    simp only [h1, h2, h3, Bool.or_false, Bool.false_eq_true, if_false, Outcome.ok.injEq,
      List.cons.injEq, Prod.mk.injEq, and_true] at h
    have hfd : fd.Encoding = "text".toList := by rw [← h.2]
    rw [hfd] at henc
    exact absurd henc (by decide)

/-- C4 (as amended): for every regular file below `rootPath`, that is whose renamed path
is `rootPath`, a separator and a relative path, renamed and read without failure, whose
renamed path has an extension that, lower-cased, is in the base64 set (`.png`, `.jar`,
`.jpg`, `.jks`), and for every content, the visitor returns, whatever the renderer is or
does, one entry whose content is the standard base64 encoding of the bytes of the file
and whose encoding is `base64`. That content read back as padded base64 gives the bytes
of the file, and it has four digits for every three bytes begun. -/
theorem VisitAndModifyFiles_base64 (T : CaseTables) (order : List Placeholder)
    (readFile : Str → Except Str (List Nat)) (rootPath path : Str) (data : TemplateData)
    (rel : Str) (content : List Nat)
    (hren : replacePathName T order data.Name path = some (rootPath ++ '/' :: rel))
    (hread : readFile path = .ok content)
    (hext : StringInSlice (ToLower T (Ext (rootPath ++ '/' :: rel)))
      defaultBase64Extensions = true) :
    (∀ render : TemplateData → List Nat → Except Str (List Nat),
      VisitAndModifyFiles ⟨T, order, readFile, render⟩ rootPath path data false none
        = .ok [('/' :: rel, ⟨asciiBytes (base64Encode content), "base64".toList⟩)]) ∧
    base64Decode (base64Encode content) = some (content.map (fun b => b % 256)) ∧
    (base64Encode content).length = 4 * ((content.length + 2) / 3) := by
  refine ⟨?_, base64Decode_encode content, base64Encode_length content⟩
  intro render
  have hkey : TrimPrefix (rootPath ++ '/' :: rel) rootPath = '/' :: rel :=
    TrimPrefix_append_left rootPath ('/' :: rel)
  have hext2 : StringInSlice (ToLower T (Ext (TrimPrefix (rootPath ++ '/' :: rel) rootPath)))
      defaultBase64Extensions = true := by
    rw [Ext_under_root]
    exact hext
  have h := (VisitAndModifyFiles_base64_of_key_ext T order readFile rootPath path data
    (rootPath ++ '/' :: rel) content hren hread hext2).1 render
  rw [hkey] at h
  exact h

/-- Instance of C4 (as amended): the key store `/r/conf/App.JKS`, whose three bytes read
`{{.` (the opening of a template action), is returned under the key `/conf/App.JKS` with
the content `e3su`, which reads back as the three bytes. -/
theorem VisitAndModifyFiles_base64_witness :
    (∀ render : TemplateData → List Nat → Except Str (List Nat),
      VisitAndModifyFiles ⟨CaseTables.trivial, Placeholder.all, fun _ => .ok [123, 123, 46],
          render⟩ "/r".toList "/r/conf/App.JKS".toList ⟨"x".toList, -1⟩ false none
        = .ok [("/conf/App.JKS".toList, ⟨[101, 51, 115, 117], "base64".toList⟩)]) ∧
    base64Decode "e3su".toList = some [123, 123, 46] ∧
    "e3su".toList.length = 4 :=
  VisitAndModifyFiles_base64 CaseTables.trivial Placeholder.all (fun _ => .ok [123, 123, 46])
    "/r".toList "/r/conf/App.JKS".toList ⟨"x".toList, -1⟩ "conf/App.JKS".toList
    [123, 123, 46] (by decide) rfl (by decide)

/-- C5 fails as stated: with `.png` in both the template set and the base64 set, the file
`/r/a.png` is rendered and tagged `text` on the sample host, and no host at all (case
tables, order of the map traversal, file content, renderer) gets an entry tagged `base64`
for it. -/
theorem VisitAndModifyFiles_template_wins :
    VisitAndModifyFilesWith ⟨[".png".toList], [".png".toList], []⟩ (Host.sample [1, 2, 3])
        "/r".toList "/r/a.png".toList ⟨"x".toList, -1⟩ false none
      = .ok [("/a.png".toList, ⟨[1, 2, 3], "text".toList⟩)] ∧
    ¬ ∃ (H : Host) (key : Str) (fd : FileData), fd.Encoding = "base64".toList ∧
      VisitAndModifyFilesWith ⟨[".png".toList], [".png".toList], []⟩ H
          "/r".toList "/r/a.png".toList ⟨"x".toList, -1⟩ false none
        = .ok [(key, fd)] := by
  refine ⟨rfl, ?_⟩
  rintro ⟨H, key, fd, henc, h⟩
  have hv : (replacements H.tables "x".toList).isSome = true := rfl
  obtain ⟨vals, hvals⟩ := Option.isSome_iff_exists.mp hv
  have hren : replacePathName H.tables H.order "x".toList "/r/a.png".toList
      = some "/r/a.png".toList := by
    simp only [replacePathName, hvals]
    rw [replaceAll_of_inert vals H.order _ (by decide)]
  obtain ⟨fd2, hm, hb⟩ := VisitAndModifyFilesWith_ok _ H _ _ ⟨"x".toList, -1⟩ _ _ hren h
  have hfd : fd = fd2 := by
    have := List.head_eq_of_cons_eq hm
    exact (Prod.mk.inj this).2
  have hfalse := hb (hfd ▸ henc)
  have hext : ToLower H.tables (Ext (TrimPrefix "/r/a.png".toList "/r".toList))
      = ".png".toList := rfl
  rw [hext] at hfalse
  exact absurd hfalse (by decide)

/-- C5 (as amended): the classification tests the template criteria before the base64
set. For every choice of the three sets and every regular file that is renamed and read
without failure: if its extension is in the template set or its base name is in the
always-template filename set, the file is classified Template, even when its extension is
also in the base64 set: the outcome is that of the renderer (its error, or one entry
with the rendered content and encoding `text`); it is classified Base64 (standard base64
of the bytes, encoding `base64`, the renderer unused) when neither template criterion
holds and its extension is in the base64 set. -/
theorem VisitAndModifyFiles_precedence (S : Sets) (H : Host) (rootPath path : Str)
    (data : TemplateData) (renamed : Str) (content : List Nat)
    (hren : replacePathName H.tables H.order data.Name path = some renamed)
    (hread : H.readFile path = .ok content) :
    ((StringInSlice (ToLower H.tables (Ext (TrimPrefix renamed rootPath))) S.extensions = true ∨
        StringInSlice (Base renamed) S.files = true) →
      VisitAndModifyFilesWith S H rootPath path data false none
        = match H.render data content with
          | .error e => .fail e
          | .ok out => .ok [(TrimPrefix renamed rootPath, ⟨out, "text".toList⟩)]) ∧
    (StringInSlice (ToLower H.tables (Ext (TrimPrefix renamed rootPath))) S.extensions = false →
      StringInSlice (Base renamed) S.files = false →
      StringInSlice (ToLower H.tables (Ext (TrimPrefix renamed rootPath)))
        S.base64Extensions = true →
      VisitAndModifyFilesWith S H rootPath path data false none
        = .ok [(TrimPrefix renamed rootPath,
            ⟨asciiBytes (base64Encode content), "base64".toList⟩)]) := by
  rw [VisitAndModifyFilesWith_file S H rootPath path data renamed content hren hread]
  constructor
  · intro ht
    have : (StringInSlice (ToLower H.tables (Ext (TrimPrefix renamed rootPath))) S.extensions
        || StringInSlice (Base renamed) S.files) = true := by
      rcases ht with h | h <;> simp [h]
    simp only [this, if_true]
  · intro h1 h2 h3
    simp [h1, h2, h3]

/-- Instance of C5 (as amended): sets with `.png` both as template and as base64
extension, the file `/r/a.png` on the sample host. -/
theorem VisitAndModifyFiles_precedence_witness :
    ((StringInSlice (ToLower (Host.sample [1, 2, 3]).tables
          (Ext (TrimPrefix "/r/a.png".toList "/r".toList))) [".png".toList] = true ∨
        StringInSlice (Base "/r/a.png".toList) [] = true) →
      VisitAndModifyFilesWith ⟨[".png".toList], [".png".toList], []⟩ (Host.sample [1, 2, 3])
          "/r".toList "/r/a.png".toList ⟨"x".toList, -1⟩ false none
        = match (Host.sample [1, 2, 3]).render ⟨"x".toList, -1⟩ [1, 2, 3] with
          | .error e => .fail e
          | .ok out => .ok [(TrimPrefix "/r/a.png".toList "/r".toList, ⟨out, "text".toList⟩)]) ∧
    (StringInSlice (ToLower (Host.sample [1, 2, 3]).tables
          (Ext (TrimPrefix "/r/a.png".toList "/r".toList))) [".png".toList] = false →
      StringInSlice (Base "/r/a.png".toList) [] = false →
      StringInSlice (ToLower (Host.sample [1, 2, 3]).tables
          (Ext (TrimPrefix "/r/a.png".toList "/r".toList))) [".png".toList] = true →
      VisitAndModifyFilesWith ⟨[".png".toList], [".png".toList], []⟩ (Host.sample [1, 2, 3])
          "/r".toList "/r/a.png".toList ⟨"x".toList, -1⟩ false none
        = .ok [(TrimPrefix "/r/a.png".toList "/r".toList,
            ⟨asciiBytes (base64Encode [1, 2, 3]), "base64".toList⟩)]) :=
  VisitAndModifyFiles_precedence ⟨[".png".toList], [".png".toList], []⟩ (Host.sample [1, 2, 3])
    "/r".toList "/r/a.png".toList ⟨"x".toList, -1⟩ "/r/a.png".toList [1, 2, 3]
    (by decide) rfl

/-- C11: for every regular file, renamed and read without failure, whose lower-cased
extension is neither in the template extension set nor in the base64 extension set and
whose base name is not in the always-template filename set (`Dockerfile`, `Makefile`),
the visitor returns, whatever the renderer is or does, one entry whose content is the
bytes of the file as they are and whose encoding is `text`. -/
theorem VisitAndModifyFiles_text (T : CaseTables) (order : List Placeholder)
    (readFile : Str → Except Str (List Nat)) (rootPath path : Str) (data : TemplateData)
    (renamed : Str) (content : List Nat)
    (hren : replacePathName T order data.Name path = some renamed)
    (hread : readFile path = .ok content)
    (h1 : StringInSlice (ToLower T (Ext (TrimPrefix renamed rootPath)))
      defaultExtensions = false)
    (h2 : StringInSlice (ToLower T (Ext (TrimPrefix renamed rootPath)))
      defaultBase64Extensions = false)
    (h3 : StringInSlice (Base renamed) defaultFiles = false)
    (render : TemplateData → List Nat → Except Str (List Nat)) :
    VisitAndModifyFiles ⟨T, order, readFile, render⟩ rootPath path data false none
      = .ok [(TrimPrefix renamed rootPath, ⟨content, "text".toList⟩)] := by
  rw [VisitAndModifyFiles, VisitAndModifyFilesWith_file defaultSets
    ⟨T, order, readFile, render⟩ rootPath path data renamed content hren hread]
  simp [defaultSets, h1, h2, h3]

/-- Instance of C11: the file `/r/notes.TXT`, whose bytes read `{{.`, under the name `x`
(the round trip of the specification); the entry `/notes.TXT` holds these three bytes. -/
theorem VisitAndModifyFiles_text_witness :
    VisitAndModifyFiles ⟨CaseTables.trivial, Placeholder.all, fun _ => .ok [123, 123, 46],
        fun _ _ => .error "render".toList⟩ "/r".toList "/r/notes.TXT".toList
        ⟨"x".toList, -1⟩ false none
      = .ok [(TrimPrefix "/r/notes.TXT".toList "/r".toList,
          ⟨[123, 123, 46], "text".toList⟩)] :=
  VisitAndModifyFiles_text CaseTables.trivial Placeholder.all (fun _ => .ok [123, 123, 46])
    "/r".toList "/r/notes.TXT".toList ⟨"x".toList, -1⟩ "/r/notes.TXT".toList
    [123, 123, 46] (by decide) rfl (by decide) (by decide) (by decide)
    (fun _ _ => .error "render".toList)

/-! ### When the renamer fails -/

theorem FieldsFunc_all_dashes (s : Str) (h : ∀ c ∈ s, c = '-') :
    FieldsFunc (fun r => r == '-') s = [] := by
  induction s with
  | nil => rfl
  | cons c cs ih =>
    have hc : c = '-' := h c (by simp)
    have := ih (fun d hd => h d (by simp [hd]))
    simp only [FieldsFunc] at this
    simp [FieldsFunc, fieldsLoop, hc, this]

theorem firstNonDash_eq_none (s : Str) : firstNonDash s = none ↔ ∀ c ∈ s, c = '-' := by
  simp [firstNonDash, List.find?_eq_none]

theorem ToCamelCase_eq_none (T : CaseTables) (s : Str) :
    ToCamelCase T s = none ↔ ∀ c ∈ s, c = '-' := by
  constructor
  · intro h
    by_contra hn
    have hf : firstNonDash s ≠ none := fun e => hn ((firstNonDash_eq_none s).mp e)
    obtain ⟨c, hc⟩ := Option.ne_none_iff_exists'.mp hf
    obtain ⟨x, tl, hx⟩ := FieldsFunc_head s c hc
    have hp : ToPascalCase T s
        = some (unicodeToUpper T c :: (x ++ (tl.map (capFirst T)).flatten)) := by
      rw [ToPascalCase_eq_fields, hx]
      simp [capFirst]
    simp [ToCamelCase, hp] at h
  · intro h
    have hp : ToPascalCase T s = some [] := by
      rw [ToPascalCase_eq_fields, FieldsFunc_all_dashes s h]
      rfl
    simp [ToCamelCase, hp]

theorem SkipFirstPart_eq (T : CaseTables) (s : Str) :
    SkipFirstPart T s = if '-' ∈ s then ToCamelCase T (afterFirstDash s) else some s := by
  by_cases h : '-' ∈ s
  · obtain ⟨a, b, rfl, ha⟩ := List.eq_append_cons_of_mem h
    have hs : Split '-' (a ++ '-' :: b) = a :: Split '-' b := by
      simpa [Split] using splitLoop_append '-' a b [] ha
    rw [if_pos h, afterFirstDash_append a b ha]
    simp only [SkipFirstPart, Contains, h, decide_True, if_true, hs, goSlice_tail, Join_Split]
  · simp [SkipFirstPart, Contains, h]

theorem SkipFirstAndLastParts_isSome (s : Str) : ∃ r, SkipFirstAndLastParts s = some r := by
  by_cases h3 : 3 ≤ (Split '-' s).length
  · have hlt : ¬ (Split '-' s).length < 3 := by omega
    exact ⟨Join ['-'] (Split '-' s).tail.dropLast,
      by simp only [SkipFirstAndLastParts, hlt, if_false, goSlice_interior _ h3]⟩
  · have hlt : (Split '-' s).length < 3 := by omega
    by_cases h2 : (Split '-' s).length = 2
    · match hs : Split '-' s, h2 with
      | [a, b], _ => exact ⟨b, by simp [SkipFirstAndLastParts, hs, goIndex]⟩
    · exact ⟨s, by simp [SkipFirstAndLastParts, hlt, h2]⟩

theorem replacements_eq_none (T : CaseTables) (name : Str) :
    replacements T name = none ↔ (SkipFirstPart T name = none ∨ ToCamelCase T name = none) := by
  obtain ⟨v2, h2⟩ := SkipFirstAndLastParts_isSome name
  have h3 := ToPascalCase_eq T name
  cases h1 : SkipFirstPart T name with
  | none => simp [replacements, h1]
  | some v1 =>
    cases h4 : ToCamelCase T name with
    | none => simp [replacements, h1, h2, h3, h4]
    | some v4 => simp [replacements, h1, h2, h3, h4]

theorem mem_of_mem_afterFirstDash (s : Str) (c : Char) (h : c ∈ afterFirstDash s) : c ∈ s := by
  have h1 : c ∈ s.dropWhile (fun r => r != '-') := List.mem_of_mem_drop h
  exact (List.dropWhile_sublist _).subset h1

theorem replacements_fail_iff (T : CaseTables) (name : Str) :
    replacements T name = none ↔
      (name = [] ∨ ('-' ∈ name ∧ ∀ c ∈ afterFirstDash name, c = '-')) := by
  rw [replacements_eq_none, SkipFirstPart_eq, ToCamelCase_eq_none]
  constructor
  · rintro (h | h)
    · by_cases hd : '-' ∈ name
      · rw [if_pos hd, ToCamelCase_eq_none] at h
        exact Or.inr ⟨hd, h⟩
      · rw [if_neg hd] at h
        exact absurd h (by simp)
    · cases name with
      | nil => exact Or.inl rfl
      | cons c cs =>
        have hc : c = '-' := h c (by simp)
        refine Or.inr ⟨by simp [hc], fun d hd => h d (mem_of_mem_afterFirstDash _ d hd)⟩
  · rintro (h | ⟨hd, h⟩)
    · subst h
      exact Or.inr (by simp)
    · left
      rw [if_pos hd, ToCamelCase_eq_none]
      exact h

theorem replacePathName_eq_none (T : CaseTables) (order : List Placeholder) (name path : Str) :
    replacePathName T order name path = none ↔ replacements T name = none := by
  cases h : replacements T name <;> simp [replacePathName, h]

/-- C14: `replacePathName` computes its replacement values before it looks at the path;
for every path and every order of the map traversal it fails at run time if and only if
the name is empty, or the name contains `-` and every rune after its first `-` is `-`.
The failure is the out-of-range index of `ToCamelCase`, reached directly or through
`SkipFirstPart` (`ToPascalCase` and `SkipFirstAndLastParts` never fail); for every other
name a string is returned. The non-empty names `-`, `svc-` and `svc--` fail, `svc-a` does
not. -/
theorem replacePathName_fails_iff (T : CaseTables) (order : List Placeholder)
    (name path : Str) :
    (replacePathName T order name path = none ↔
      (name = [] ∨ ('-' ∈ name ∧ ∀ c ∈ afterFirstDash name, c = '-'))) ∧
    (replacePathName T order name path = none ↔
      (ToCamelCase T name = none ∨ SkipFirstPart T name = none)) ∧
    (∃ r, ToPascalCase T name = some r) ∧
    (∃ r, SkipFirstAndLastParts name = some r) ∧
    ((∃ r, replacePathName T order name path = some r) ↔
      ¬ (name = [] ∨ ('-' ∈ name ∧ ∀ c ∈ afterFirstDash name, c = '-'))) ∧
    replacePathName T order "-".toList path = none ∧
    replacePathName T order "svc-".toList path = none ∧
    replacePathName T order "svc--".toList path = none ∧
    (replacePathName T order "svc-a".toList path).isSome = true := by
  have hmain := (replacePathName_eq_none T order name path).trans (replacements_fail_iff T name)
  refine ⟨hmain, ?_, ⟨_, ToPascalCase_eq T name⟩, SkipFirstAndLastParts_isSome name, ?_,
    rfl, rfl, rfl, rfl⟩
  · rw [replacePathName_eq_none, replacements_eq_none]
    exact Or.comm
  · rw [← hmain]
    cases replacePathName T order name path <;> simp

/-! ### The archive extractor -/

theorem splitLoop_head (sep : Char) (s cur : Str) :
    ∃ tl, splitLoop sep cur s = (cur ++ s.takeWhile (fun c => c != sep)) :: tl := by
  induction s generalizing cur with
  | nil => exact ⟨[], by simp [splitLoop]⟩
  | cons c cs ih =>
    by_cases hc : c = sep
    · exact ⟨splitLoop sep [] cs, by simp [splitLoop, hc, List.takeWhile_cons]⟩
    · obtain ⟨tl, htl⟩ := ih (cur ++ [c])
      exact ⟨tl, by simp [splitLoop, hc, List.takeWhile_cons, htl]⟩

theorem goIndex_Split_zero (name : Str) :
    goIndex (Split '/' name) 0 = some (leadingSegment name) := by
  obtain ⟨tl, h⟩ := splitLoop_head '/' name []
  simp [Split, h, goIndex, leadingSegment]

theorem unpackLoop_cases {σ : Type} (fs : FileSystem σ) (dst : Str) (tarErr : Option Str)
    (entries : List Header) (disk : σ) (rootDir : Str) :
    (∃ e, unpackLoop fs dst tarErr disk rootDir entries = .fail e) ∨
    (∃ disk2, unpackLoop fs dst tarErr disk rootDir entries
      = .ok (rootAfter rootDir entries, disk2)) := by
  induction entries generalizing disk rootDir with
  | nil =>
    cases tarErr with
    | none => exact Or.inr ⟨disk, rfl⟩
    | some e => exact Or.inl ⟨e, rfl⟩
  | cons hdr rest ih =>
    by_cases hp : hdr.Name = paxGlobalHeader
    · simpa [unpackLoop, rootAfter, hp] using ih disk rootDir
    · have hroot : (if rootDir = [] then goIndex (Split '/' hdr.Name) 0 else some rootDir)
          = some (if rootDir = [] then leadingSegment hdr.Name else rootDir) := by
        by_cases hr : rootDir = [] <;> simp [hr, goIndex_Split_zero]
      have hafter : rootAfter rootDir (hdr :: rest)
          = rootAfter (if rootDir = [] then leadingSegment hdr.Name else rootDir) rest := by
        by_cases hr : rootDir = [] <;> simp [rootAfter, hp, hr]
      rw [hafter]
      simp only [unpackLoop, hp, if_false, hroot]
      cases hd : hdr.isDir with
      | true =>
        cases hm : fs.mkdirAll disk (filepathJoin [dst, hdr.Name]) hdr.mode with
        | error e => exact Or.inl ⟨e, by simp [hm]⟩
        | ok disk2 => simpa [hm] using ih disk2 _
      | false =>
        cases hw : fs.writeFile disk (filepathJoin [dst, hdr.Name]) hdr.mode hdr.body with
        | error e => exact Or.inl ⟨e, by simp [hw]⟩
        | ok disk2 => simpa [hw] using ih disk2 _

theorem UnpackTarGz_cases {σ : Type} (fs : FileSystem σ) (disk : σ) (data : Archive)
    (dst : Str) :
    (∃ e, UnpackTarGz fs disk data dst = .fail e) ∨
    (∃ disk2, UnpackTarGz fs disk data dst
      = .ok (filepathJoin [dst, rootAfter [] data.entries], disk2)) := by
  cases hg : data.gzipErr with
  | some e => exact Or.inl ⟨e, by simp [UnpackTarGz, hg]⟩
  | none =>
    rcases unpackLoop_cases fs dst data.tarErr data.entries disk [] with ⟨e, h⟩ | ⟨d, h⟩
    · exact Or.inl ⟨e, by simp [UnpackTarGz, hg, h]⟩
    · exact Or.inr ⟨d, by simp [UnpackTarGz, hg, h]⟩

theorem rootAfter_of_ne_nil (rootDir : Str) (entries : List Header) (h : rootDir ≠ []) :
    rootAfter rootDir entries = rootDir := by
  induction entries with
  | nil => rfl
  | cons hdr rest ih =>
    by_cases hp : hdr.Name = paxGlobalHeader
    · simpa [rootAfter, hp] using ih
    · simpa [rootAfter, hp, h] using ih

theorem rootAfter_first (entries : List Header) (hdr : Header) (rest : List Header)
    (hf : entries.filter (fun h => decide (h.Name ≠ paxGlobalHeader)) = hdr :: rest)
    (hne : leadingSegment hdr.Name ≠ []) :
    rootAfter [] entries = leadingSegment hdr.Name := by
  induction entries with
  | nil => simp at hf
  | cons h0 tl ih =>
    by_cases hp : h0.Name = paxGlobalHeader
    · have hf2 : tl.filter (fun h => decide (h.Name ≠ paxGlobalHeader))
          = hdr :: rest := by
        simpa [List.filter_cons, hp] using hf
      simpa [rootAfter, hp] using ih hf2
    · have h0eq : h0 = hdr := by
        have : h0 :: tl.filter (fun h => decide (h.Name ≠ paxGlobalHeader))
            = hdr :: rest := by
          simpa [List.filter_cons, hp] using hf
        exact (List.cons.inj this).1
      subst h0eq
      simp only [rootAfter, hp, if_false, if_true]
      exact rootAfter_of_ne_nil _ tl hne

theorem rootAfter_none (entries : List Header)
    (hf : entries.filter (fun h => decide (h.Name ≠ paxGlobalHeader)) = []) :
    rootAfter [] entries = [] := by
  induction entries with
  | nil => rfl
  | cons h0 tl ih =>
    by_cases hp : h0.Name = paxGlobalHeader
    · have hf2 : tl.filter (fun h => decide (h.Name ≠ paxGlobalHeader)) = [] := by
        simpa [List.filter_cons, hp] using hf
      simpa [rootAfter, hp] using ih hf2
    · simp [List.filter_cons, hp] at hf

/-- C13, the code at the failing input: an archive of two files named `/a` and `b`,
unpacked into `/tmp/t`. The leading segment of the first name is empty, and the empty
string is also what the guard of the assignment takes for a root not yet recorded, so the
second entry assigns `rootDir` again: on a file system that accepts every operation the
call returns `/tmp/t/b`, and on no file system does it return `/tmp/t`, which is
`/tmp/t` joined with the leading segment of the first entry. -/
theorem UnpackTarGz_root_reassigned :
    UnpackTarGz FileSystem.accepting ()
        ⟨none, [⟨"/a".toList, false, 420, [104, 105]⟩, ⟨"b".toList, false, 420, []⟩], none⟩
        "/tmp/t".toList
      = .ok ("/tmp/t/b".toList, ()) ∧
    leadingSegment "/a".toList = [] ∧
    filepathJoin ["/tmp/t".toList, leadingSegment "/a".toList] = "/tmp/t".toList ∧
    (∀ (σ : Type) (fs : FileSystem σ) (disk disk2 : σ),
      UnpackTarGz fs disk
          ⟨none, [⟨"/a".toList, false, 420, [104, 105]⟩, ⟨"b".toList, false, 420, []⟩], none⟩
          "/tmp/t".toList
        ≠ .ok ("/tmp/t".toList, disk2)) := by
  refine ⟨rfl, rfl, by decide, ?_⟩
  intro σ fs disk disk2 h
  rcases UnpackTarGz_cases fs disk
      ⟨none, [⟨"/a".toList, false, 420, [104, 105]⟩, ⟨"b".toList, false, 420, []⟩], none⟩
      "/tmp/t".toList with ⟨e, he⟩ | ⟨d, hd⟩
  · rw [he] at h
    exact Outcome.noConfusion h
  · rw [hd] at h
    have hpath := congrArg Prod.fst (Outcome.ok.inj h)
    have hval : filepathJoin ["/tmp/t".toList,
        rootAfter [] [⟨"/a".toList, false, 420, [104, 105]⟩, ⟨"b".toList, false, 420, []⟩]]
        = "/tmp/t/b".toList := by decide
    simp only [hval] at hpath
    exact absurd hpath (by decide)

theorem VisitAndModifyFilesWith_dir (S : Sets) (H : Host) (rootPath path : Str)
    (data : TemplateData) :
    VisitAndModifyFilesWith S H rootPath path data true none
      = match replacePathName H.tables H.order data.Name path with
        | none => .panic
        | some _ => .ok [] := by
  cases h : replacePathName H.tables H.order data.Name path <;>
    simp [VisitAndModifyFilesWith, h]

/-- C12, the code at the failing input: the directory `/tmp/t/src` visited with no
incoming error under the project name `svc-`. `replacePathName` is called before
`f.IsDir()` is looked at and fails for this name (see C14), so on every host the call
panics instead of returning the empty map and no error; under the name `svc` the same
call returns the empty map. -/
theorem VisitAndModifyFiles_directory_panics :
    (∀ H : Host, VisitAndModifyFiles H "/tmp/t".toList "/tmp/t/src".toList
        ⟨"svc-".toList, -1⟩ true none = .panic) ∧
    (∀ H : Host, VisitAndModifyFiles H "/tmp/t".toList "/tmp/t/src".toList
        ⟨"svc".toList, -1⟩ true none = .ok []) := by
  constructor
  · intro H
    have h : replacePathName H.tables H.order
        (TemplateData.mk "svc-".toList (-1)).Name "/tmp/t/src".toList = none := rfl
    rw [VisitAndModifyFiles, VisitAndModifyFilesWith_dir, h]
  · intro H
    have hv : (replacePathName H.tables H.order
        (TemplateData.mk "svc".toList (-1)).Name "/tmp/t/src".toList).isSome = true := rfl
    obtain ⟨renamed, hren⟩ := Option.isSome_iff_exists.mp hv
    rw [VisitAndModifyFiles, VisitAndModifyFilesWith_dir, hren]

end GitlabScaffold
